import Mathlib

/-!
BarcodeGen: Code128 content encoding and rendering

Shallow embedding of `src/Code128Code.h`, `src/Code128Content.h` and
`src/Code128Rendering.h` (namespace `GenCode128`).

Conventions of the embedding

* A `std::string` is a `List Int`: the list of the values `int(asciiData[i])`
  of its characters (`0..127` for ASCII text; a byte above `0x7f` is a value in
  `128..255` where `char` is unsigned and in `-128..-1` where it is signed).
* A `std::vector<int>` is a `List Int`; `push_back` appends at the end.  The
  pixel vector is a `List Nat`.
* `int` is 32 bits wide and `size_t` 64 bits wide.  The arithmetic of the
  encoder that can leave the range of its type is the checksum accumulation
  `checksum += i * results[i]`; it is done in `size_t` and converted back, and
  is modelled with explicit reductions (`toSizeT`, `toInt`).
* The signed `int` arithmetic of the renderer has no defined result outside
  32 bits; the renderer is modelled as a partial function (`Option`).
* `float` is IEEE single precision, every operation rounded to nearest, ties
  to even (`roundFloat`).
* A parameter passed by reference (`CodeSet& currentCodeSet`) is returned as a
  second component of the result.
-/

namespace GenCode128

/-! ## Code128Code.h -/

/-- The enumeration `GenCode128::CodeSet`. -/
inductive CodeSet where
  | CodeA
  | CodeB
  deriving DecidableEq, Repr

/-- The enumeration `Code128Code::CodeSetAllowed`. -/
inductive CodeSetAllowed where
  | CodeA
  | CodeB
  | CodeAorB
  deriving DecidableEq, Repr

/-- The struct `CodesForCharResult`: `codes` holds the entries of `codes[2]`
that were assigned (one or two of them), `length` the field `length`. -/
structure CodesForCharResult where
  codes : List Int
  length : Nat
  deriving DecidableEq, Repr

def CShift : Int := 98

def CCodeA : Int := 101

def CCodeB : Int := 100

def CStartA : Int := 103

def CStartB : Int := 104

def CStop : Int := 106

/-- The function `Code128Code::CodesetAllowedForChar`. -/
def CodesetAllowedForChar (charAscii : Int) : CodeSetAllowed :=
  if charAscii ≥ 32 ∧ charAscii ≤ 95 then
    CodeSetAllowed.CodeAorB
  else
    if charAscii < 32 then CodeSetAllowed.CodeA else CodeSetAllowed.CodeB

/-- The function `Code128Code::CharCompatibleWithCodeset`. -/
def CharCompatibleWithCodeset (charAscii : Int) (currentCodeSet : CodeSet) : Bool :=
  let csa := CodesetAllowedForChar charAscii
  csa == CodeSetAllowed.CodeAorB
    || (csa == CodeSetAllowed.CodeA && currentCodeSet == CodeSet.CodeA)
    || (csa == CodeSetAllowed.CodeB && currentCodeSet == CodeSet.CodeB)

/-- The function `Code128Code::CodeValueForChar`. -/
def CodeValueForChar (charAscii : Int) : Int :=
  if charAscii ≥ 32 then charAscii - 32 else charAscii + 64

/-- The first half of `Code128Code::CodesForChar` (source lines 61-85): the
value of the local `shifter` and of the by-reference `currentCodeSet` when the
result struct is about to be filled. -/
def CodesForChar.shifter (charAscii lookAheadAscii : Int) (currentCodeSet : CodeSet) :
    Int × CodeSet :=
  if !CharCompatibleWithCodeset charAscii currentCodeSet then
    if (lookAheadAscii != -1) && !CharCompatibleWithCodeset lookAheadAscii currentCodeSet then
      match currentCodeSet with
      | CodeSet.CodeA => (CCodeB, CodeSet.CodeB)
      | CodeSet.CodeB => (CCodeA, CodeSet.CodeA)
    else
      (CShift, currentCodeSet)
  else
    (-1, currentCodeSet)

/-- The function `Code128Code::CodesForChar`; the second component is the value
of `currentCodeSet` on return. -/
def CodesForChar (charAscii lookAheadAscii : Int) (currentCodeSet : CodeSet) :
    CodesForCharResult × CodeSet :=
  let sc := CodesForChar.shifter charAscii lookAheadAscii currentCodeSet
  if sc.1 != -1 then
    ({ codes := [sc.1, CodeValueForChar charAscii], length := 2 }, sc.2)
  else
    ({ codes := [CodeValueForChar charAscii], length := 1 }, sc.2)

/-- The function `Code128Code::StartCodeForCodeSet`. -/
def StartCodeForCodeSet (cs : CodeSet) : Int :=
  if cs = CodeSet.CodeA then CStartA else CStartB

/-- The function `Code128Code::StopCode`. -/
def StopCode : Int := CStop

/-! ## Code128Content.h -/

/-- The local `vote` of `Code128Content::GetBestStartSet` before the
comparison with zero (source lines 93-97). -/
def GetBestStartSet.vote (csa1 csa2 : CodeSetAllowed) : Int :=
  let vote : Int := 0
  let vote := vote + (if csa1 = CodeSetAllowed.CodeA then 1 else 0)
  let vote := vote + (if csa1 = CodeSetAllowed.CodeB then -1 else 0)
  let vote := vote + (if csa2 = CodeSetAllowed.CodeA then 1 else 0)
  let vote := vote + (if csa2 = CodeSetAllowed.CodeB then -1 else 0)
  vote

/-- The function `Code128Content::GetBestStartSet`. -/
def GetBestStartSet (csa1 csa2 : CodeSetAllowed) : CodeSet :=
  if GetBestStartSet.vote csa1 csa2 > 0 then CodeSet.CodeA else CodeSet.CodeB

/-- Conversion of an `int` (or of a `size_t` expression) to the 64-bit
unsigned type `size_t`: reduction modulo `2^64`. -/
def toSizeT (x : Int) : Int := x % 2 ^ 64

/-- Conversion of a `size_t` value to the 32-bit type `int`: the value
congruent modulo `2^32` that lies in `-2^31 .. 2^31 - 1`. -/
def toInt (x : Int) : Int := (x + 2 ^ 31) % 2 ^ 32 - 2 ^ 31

/-- One execution of `checksum += i * results[i]` (source line 76), with
`i` a `size_t` and `checksum`, `results[i]` of type `int`: the product and the
sum are computed in `size_t`, the sum is converted back to `int`. -/
def checksumStep (checksum : Int) (i : Nat) (r : Int) : Int :=
  toInt (toSizeT (toSizeT checksum + toSizeT (toSizeT (i : Int) * toSizeT r)))

/-- The loop of source lines 74-77 from index `i` on: `rest` holds
`results[i], results[i+1], ...`. -/
def checksumLoop : List Int → Nat → Int → Int
  | [], _, checksum => checksum
  | r :: rest, i, checksum => checksumLoop rest (i + 1) (checksumStep checksum i r)

/-- The value of `nextchar` (source line 60) for the character in front of
`rest`: the character after it, or `-1` when there is none. -/
def nextcharOf (rest : List Int) : Int :=
  match rest with
  | [] => -1
  | c :: _ => c

/-- The loop of source lines 57-69 from index `i` on: the first argument holds
`asciiData[i], asciiData[i+1], ...`. -/
def encodeLoop : List Int → CodeSet → List Int → List Int
  | [], _, results => results
  | thischar :: rest, currentCodeSet, results =>
    let nextchar : Int := nextcharOf rest
    let rc := CodesForChar thischar nextchar currentCodeSet
    let results := results ++ [rc.1.codes.getD 0 0]
    let results := if rc.1.length > 1 then results ++ [rc.1.codes.getD 1 0] else results
    encodeLoop rest rc.2 results

/-- The codeset the encoder starts in (source lines 42-49). -/
def startSetOf (asciiData : List Int) : CodeSet :=
  let csa1 := if asciiData.length > 0 then CodesetAllowedForChar (asciiData.getD 0 0)
    else CodeSetAllowed.CodeAorB
  let csa2 := if asciiData.length > 1 then CodesetAllowedForChar (asciiData.getD 1 0)
    else CodeSetAllowed.CodeAorB
  GetBestStartSet csa1 csa2

/-- The function `Code128Content::StringToCode128`. -/
def StringToCode128 (asciiData : List Int) : List Int :=
  let currentCodeSet := startSetOf asciiData
  let results : List Int := [StartCodeForCodeSet currentCodeSet]
  let results := encodeLoop asciiData currentCodeSet results
  let checksum := checksumLoop (results.drop 1) 1 (results.getD 0 0)
  let results := results ++ [Int.tmod checksum 103]
  let results := results ++ [StopCode]
  results

/-- The class `Code128Content`: its only data member is `codes`. -/
structure Code128Content where
  codes : List Int
  deriving DecidableEq, Repr

/-- The constructor `Code128Content::Code128Content`.  It contains no `throw`
and no validation, so it is a total function. -/
def Code128Content.new (asciiData : List Int) : Code128Content :=
  { codes := StringToCode128 asciiData }

/-- The member function `Code128Content::GetCodes`. -/
def Code128Content.GetCodes (content : Code128Content) : List Int :=
  content.codes

/-! ## Code128Rendering.h

Signed `int` arithmetic of the renderer is checked: a result outside the
range of a 32-bit `int` has no defined value, and so has a read of the
pattern table or a pixel store outside its array.  A function in which this
can happen returns an `Option`; `none` stands for "no bitmap is returned"
(undefined behaviour, or the exception of an impossible allocation).
-/

/-- The result of a signed `int` operation whose exact value is `x`: defined
only when `x` fits 32 bits. -/
def checkInt (x : Int) : Option Int :=
  if -2 ^ 31 ≤ x ∧ x < 2 ^ 31 then some x else none

/-- The struct `Code128Bitmap`. -/
structure Code128Bitmap where
  pixels : List Nat
  width : Int
  height : Int
  deriving DecidableEq, Repr

/-- The pixel value `0xffffffff` the constructor fills the bitmap with. -/
def backgroundPixel : Nat := 0xffffffff

/-- The pixel value `0xff000000` stored for a bar. -/
def markPixel : Nat := 0xff000000

/-- The constructor `Code128Bitmap::Code128Bitmap`: `width * height` is an
`int` product converted to the `size_t` element count; a negative product
becomes a count no vector can hold. -/
def Code128Bitmap.new (width height : Int) : Option Code128Bitmap := do
  let count ← checkInt (width * height)
  if count < 0 then none
  else some { pixels := List.replicate count.toNat backgroundPixel, width := width,
              height := height }

def CQuietWidth : Int := 10

/-- The static array `CPatterns[107][8]` of `GetCPatterns`. -/
def CPatterns : List (List Int) :=
  [
    [2, 1, 2, 2, 2, 2, 0, 0],
    [2, 2, 2, 1, 2, 2, 0, 0],
    [2, 2, 2, 2, 2, 1, 0, 0],
    [1, 2, 1, 2, 2, 3, 0, 0],
    [1, 2, 1, 3, 2, 2, 0, 0],
    [1, 3, 1, 2, 2, 2, 0, 0],
    [1, 2, 2, 2, 1, 3, 0, 0],
    [1, 2, 2, 3, 1, 2, 0, 0],
    [1, 3, 2, 2, 1, 2, 0, 0],
    [2, 2, 1, 2, 1, 3, 0, 0],
    [2, 2, 1, 3, 1, 2, 0, 0],
    [2, 3, 1, 2, 1, 2, 0, 0],
    [1, 1, 2, 2, 3, 2, 0, 0],
    [1, 2, 2, 1, 3, 2, 0, 0],
    [1, 2, 2, 2, 3, 1, 0, 0],
    [1, 1, 3, 2, 2, 2, 0, 0],
    [1, 2, 3, 1, 2, 2, 0, 0],
    [1, 2, 3, 2, 2, 1, 0, 0],
    [2, 2, 3, 2, 1, 1, 0, 0],
    [2, 2, 1, 1, 3, 2, 0, 0],
    [2, 2, 1, 2, 3, 1, 0, 0],
    [2, 1, 3, 2, 1, 2, 0, 0],
    [2, 2, 3, 1, 1, 2, 0, 0],
    [3, 1, 2, 1, 3, 1, 0, 0],
    [3, 1, 1, 2, 2, 2, 0, 0],
    [3, 2, 1, 1, 2, 2, 0, 0],
    [3, 2, 1, 2, 2, 1, 0, 0],
    [3, 1, 2, 2, 1, 2, 0, 0],
    [3, 2, 2, 1, 1, 2, 0, 0],
    [3, 2, 2, 2, 1, 1, 0, 0],
    [2, 1, 2, 1, 2, 3, 0, 0],
    [2, 1, 2, 3, 2, 1, 0, 0],
    [2, 3, 2, 1, 2, 1, 0, 0],
    [1, 1, 1, 3, 2, 3, 0, 0],
    [1, 3, 1, 1, 2, 3, 0, 0],
    [1, 3, 1, 3, 2, 1, 0, 0],
    [1, 1, 2, 3, 1, 3, 0, 0],
    [1, 3, 2, 1, 1, 3, 0, 0],
    [1, 3, 2, 3, 1, 1, 0, 0],
    [2, 1, 1, 3, 1, 3, 0, 0],
    [2, 3, 1, 1, 1, 3, 0, 0],
    [2, 3, 1, 3, 1, 1, 0, 0],
    [1, 1, 2, 1, 3, 3, 0, 0],
    [1, 1, 2, 3, 3, 1, 0, 0],
    [1, 3, 2, 1, 3, 1, 0, 0],
    [1, 1, 3, 1, 2, 3, 0, 0],
    [1, 1, 3, 3, 2, 1, 0, 0],
    [1, 3, 3, 1, 2, 1, 0, 0],
    [3, 1, 3, 1, 2, 1, 0, 0],
    [2, 1, 1, 3, 3, 1, 0, 0],
    [2, 3, 1, 1, 3, 1, 0, 0],
    [2, 1, 3, 1, 1, 3, 0, 0],
    [2, 1, 3, 3, 1, 1, 0, 0],
    [2, 1, 3, 1, 3, 1, 0, 0],
    [3, 1, 1, 1, 2, 3, 0, 0],
    [3, 1, 1, 3, 2, 1, 0, 0],
    [3, 3, 1, 1, 2, 1, 0, 0],
    [3, 1, 2, 1, 1, 3, 0, 0],
    [3, 1, 2, 3, 1, 1, 0, 0],
    [3, 3, 2, 1, 1, 1, 0, 0],
    [3, 1, 4, 1, 1, 1, 0, 0],
    [2, 2, 1, 4, 1, 1, 0, 0],
    [4, 3, 1, 1, 1, 1, 0, 0],
    [1, 1, 1, 2, 2, 4, 0, 0],
    [1, 1, 1, 4, 2, 2, 0, 0],
    [1, 2, 1, 1, 2, 4, 0, 0],
    [1, 2, 1, 4, 2, 1, 0, 0],
    [1, 4, 1, 1, 2, 2, 0, 0],
    [1, 4, 1, 2, 2, 1, 0, 0],
    [1, 1, 2, 2, 1, 4, 0, 0],
    [1, 1, 2, 4, 1, 2, 0, 0],
    [1, 2, 2, 1, 1, 4, 0, 0],
    [1, 2, 2, 4, 1, 1, 0, 0],
    [1, 4, 2, 1, 1, 2, 0, 0],
    [1, 4, 2, 2, 1, 1, 0, 0],
    [2, 4, 1, 2, 1, 1, 0, 0],
    [2, 2, 1, 1, 1, 4, 0, 0],
    [4, 1, 3, 1, 1, 1, 0, 0],
    [2, 4, 1, 1, 1, 2, 0, 0],
    [1, 3, 4, 1, 1, 1, 0, 0],
    [1, 1, 1, 2, 4, 2, 0, 0],
    [1, 2, 1, 1, 4, 2, 0, 0],
    [1, 2, 1, 2, 4, 1, 0, 0],
    [1, 1, 4, 2, 1, 2, 0, 0],
    [1, 2, 4, 1, 1, 2, 0, 0],
    [1, 2, 4, 2, 1, 1, 0, 0],
    [4, 1, 1, 2, 1, 2, 0, 0],
    [4, 2, 1, 1, 1, 2, 0, 0],
    [4, 2, 1, 2, 1, 1, 0, 0],
    [2, 1, 2, 1, 4, 1, 0, 0],
    [2, 1, 4, 1, 2, 1, 0, 0],
    [4, 1, 2, 1, 2, 1, 0, 0],
    [1, 1, 1, 1, 4, 3, 0, 0],
    [1, 1, 1, 3, 4, 1, 0, 0],
    [1, 3, 1, 1, 4, 1, 0, 0],
    [1, 1, 4, 1, 1, 3, 0, 0],
    [1, 1, 4, 3, 1, 1, 0, 0],
    [4, 1, 1, 1, 1, 3, 0, 0],
    [4, 1, 1, 3, 1, 1, 0, 0],
    [1, 1, 3, 1, 4, 1, 0, 0],
    [1, 1, 4, 1, 3, 1, 0, 0],
    [3, 1, 1, 1, 4, 1, 0, 0],
    [4, 1, 1, 1, 3, 1, 0, 0],
    [2, 1, 1, 4, 1, 2, 0, 0],
    [2, 1, 1, 2, 1, 4, 0, 0],
    [2, 1, 1, 2, 3, 2, 0, 0],
    [2, 3, 3, 1, 1, 1, 2, 0]
  ]

/-- The function `Code128Rendering::GetCPatterns`: `CPatterns[i][j]`, defined
for indices inside the array. -/
def GetCPatterns (i j : Int) : Option Int :=
  if 0 ≤ i ∧ i < 107 ∧ 0 ≤ j ∧ j < 8 then
    some ((CPatterns.getD i.toNat []).getD j.toNat 0)
  else none

/-- The power of two `q` such that a natural number `n` with more than 24
binary digits is rounded to a multiple of `q` (`1` when `n < 2^24`); the first
argument bounds the number of halvings. -/
def floatQuantumAux : Nat → Nat → Nat
  | 0, _ => 1
  | fuel + 1, n => if n < 2 ^ 24 then 1 else 2 * floatQuantumAux fuel (n / 2)

/-- The spacing of single-precision values around `n`. -/
def floatQuantum (n : Nat) : Nat := floatQuantumAux n n

/-- Rounding of `n` to 24 significant binary digits, ties to even: the IEEE
single-precision rounding (round to nearest even) of a nonnegative value given
as `n` units of a fixed power of two. -/
def roundFloat (n : Nat) : Nat :=
  let q := floatQuantum n
  let a := n / q
  let r := n % q
  if 2 * r < q then a * q
  else if q < 2 * r then (a + 1) * q
  else if a % 2 = 0 then a * q else (a + 1) * q

/-- Single-precision rounding of a signed value (rounding is symmetric). -/
def roundFloatInt (x : Int) : Int :=
  if 0 ≤ x then (roundFloat x.toNat : Int) else -(roundFloat (-x).toNat : Int)

/-- The expression `int(width * 0.30f + 1)` (source line 162), each operation
rounded to single precision: `width` is converted to `float`, multiplied by
`0.30f = 10066330 / 2^25`, `1` is added, and the result is truncated.  The
product and the sum are kept in units of `2^-25`. -/
def heightOfWidth (width : Int) : Int :=
  let w := roundFloatInt width
  let p := roundFloatInt (w * 10066330)
  let s := roundFloatInt (p + 2 ^ 25)
  Int.tdiv s (2 ^ 25)

/-- The store `bitmap.pixels[index] = 0xff000000` (source line 184): defined
for an index inside the vector. -/
def storePixel (pixels : List Nat) (index : Int) : Option (List Nat) :=
  if 0 ≤ index ∧ index < (pixels.length : Int) then
    some (pixels.set index.toNat markPixel)
  else none

/-- The loop over `x` (source lines 182-185) with `n` iterations left. -/
def paintSpan (width y : Int) : Nat → Int → List Nat → Option (List Nat)
  | 0, _, pixels => some pixels
  | n + 1, x, pixels => do
    let row ← checkInt (y * width)
    let index ← checkInt (row + x)
    let pixels ← storePixel pixels index
    let x ← checkInt (x + 1)
    paintSpan width y n x pixels

/-- The loop over `y` (source lines 180-186) with `n` iterations left; the
loop over `x` runs from `cursor` while `x < cursor + barWidth`. -/
def paintBar (width cursor barWidth : Int) : Nat → Int → List Nat → Option (List Nat)
  | 0, _, pixels => some pixels
  | n + 1, y, pixels => do
    let xEnd ← checkInt (cursor + barWidth)
    let pixels ← paintSpan width y (xEnd - cursor).toNat cursor pixels
    let y ← checkInt (y + 1)
    paintBar width cursor barWidth n y pixels

/-- One iteration of the loop over `bar` (source lines 178-192); the state is
the cursor and the pixel vector. -/
def paintPair (barWeight width height code bar : Int) (st : Int × List Nat) :
    Option (Int × List Nat) := do
  let pattern ← GetCPatterns code bar
  let barWidth ← checkInt (pattern * barWeight)
  let space ← GetCPatterns code (bar + 1)
  let spcWidth ← checkInt (space * barWeight)
  let pixels ← paintBar width st.1 barWidth height.toNat 0 st.2
  let advance ← checkInt (barWidth + spcWidth)
  let cursor ← checkInt (st.1 + advance)
  some (cursor, pixels)

/-- The loop over `bar = 0, 2, 4, 6` for one code (source lines 176-193). -/
def paintCode (barWeight width height : Int) (st : Int × List Nat) (code : Int) :
    Option (Int × List Nat) :=
  [0, 2, 4, 6].foldlM (fun st bar => paintPair barWeight width height code bar st) st

/-- The loop over the codes (source lines 173-194). -/
def paintCodes (barWeight width height : Int) (codes : List Int) (st : Int × List Nat) :
    Option (Int × List Nat) :=
  codes.foldlM (paintCode barWeight width height) st

/-- The expression `int(((codes.size() - 3) * 11) + 35)` (source line 161):
the arithmetic is done in `size_t`, the result is converted to `int`. -/
def moduleCount (size : Nat) : Int :=
  toInt (toSizeT (toSizeT (toSizeT ((size : Int) - 3) * 11) + 35))

/-- The statement `if (addQuietZone) width += 2 * CQuietWidth * barWeight`
(source lines 164-167). -/
def addQuietMargin (width barWeight : Int) (addQuietZone : Bool) : Option Int :=
  if addQuietZone then do
    let margin ← checkInt (2 * CQuietWidth * barWeight)
    checkInt (width + margin)
  else some width

/-- The initial value of `cursor` (source line 172). -/
def startCursor (barWeight : Int) (addQuietZone : Bool) : Option Int :=
  if addQuietZone then checkInt (CQuietWidth * barWeight) else some 0

/-- The function `Code128Rendering::MakeBarcodeImage` together with the final
value of its local `cursor`. -/
def MakeBarcodeImage.run (inputData : List Int) (barWeight : Int) (addQuietZone : Bool) :
    Option (Int × Code128Bitmap) := do
  let content := Code128Content.new inputData
  let codes := content.GetCodes
  let width ← checkInt (moduleCount codes.length * barWeight)
  let height := heightOfWidth width
  let width ← addQuietMargin width barWeight addQuietZone
  let bitmap ← Code128Bitmap.new width height
  let cursor ← startCursor barWeight addQuietZone
  let st ← paintCodes barWeight bitmap.width height codes (cursor, bitmap.pixels)
  some (st.1, { bitmap with pixels := st.2 })

/-- The function `Code128Rendering::MakeBarcodeImage`. -/
def MakeBarcodeImage (inputData : List Int) (barWeight : Int) (addQuietZone : Bool) :
    Option Code128Bitmap :=
  (MakeBarcodeImage.run inputData barWeight addQuietZone).map (fun r => r.2)

/-! ## Specification-side definitions -/

/-- The weighted sum `i * r_i + (i+1) * r_(i+1) + ...` of a list of codes whose
first element has weight `i`, in exact integer arithmetic. -/
def weightedSum : List Int → Nat → Int
  | [], _ => 0
  | r :: rest, i => (i : Int) * r + weightedSum rest (i + 1)

/-- The checksum recomputed from a produced sequence `s` of length `L`:
`(s[0] + sum over i from 1 to L-3 of i * s[i]) mod 103`, in exact arithmetic. -/
def recomputedChecksum (s : List Int) : Int :=
  (s.getD 0 0 + ∑ i in Finset.Icc 1 (s.length - 3), (i : Int) * s.getD i 0) % 103

/-- The contribution of an allowance to the start-codeset vote as the
specification words it: `+1` for A-only, `-1` for B-only, `0` for A-or-B. -/
def specVoteOfAllowance (csa : CodeSetAllowed) : Int :=
  match csa with
  | CodeSetAllowed.CodeA => 1
  | CodeSetAllowed.CodeB => -1
  | CodeSetAllowed.CodeAorB => 0

/-- The contribution of one character to the vote of the specification. -/
def specVoteOfChar (c : Int) : Int :=
  specVoteOfAllowance (CodesetAllowedForChar c)

/-- The vote of the specification: the sum of the contributions of the first
two characters; a missing character contributes nothing. -/
def specStartVote (asciiData : List Int) : Int :=
  ((asciiData.take 2).map specVoteOfChar).sum

/-- The checksum the specification gives for a string `c1..cn` encoded in
codeset B: `(104 + sum over i from 1 to n of i * (ci - 32)) mod 103`. -/
def specChecksumB (asciiData : List Int) : Int :=
  (104 + ∑ i in Finset.Icc 1 asciiData.length, (i : Int) * (asciiData.getD (i - 1) 0 - 32)) % 103

/-- A code allowed between the start code and the checksum: a data code
`0..95`, Shift (98), switch to B (100) or switch to A (101). -/
def IsBodyCode (v : Int) : Prop :=
  (0 ≤ v ∧ v ≤ 95) ∨ v = 98 ∨ v = 100 ∨ v = 101

/-- The well-formed sequence invariant of the specification. -/
def WellFormedSequence (s : List Int) : Prop :=
  3 ≤ s.length
    ∧ (s.getD 0 0 = 103 ∨ s.getD 0 0 = 104)
    ∧ s.getD (s.length - 1) 0 = 106
    ∧ (0 ≤ s.getD (s.length - 2) 0 ∧ s.getD (s.length - 2) 0 ≤ 102)
    ∧ (∀ i : Nat, 0 < i → i < s.length - 2 → IsBodyCode (s.getD i 0))
    ∧ (∀ v ∈ s, 0 ≤ v ∧ v ≤ 106)

/-- Every character value of the string lies in `0..127`. -/
def IsAscii (asciiData : List Int) : Prop :=
  ∀ c ∈ asciiData, 0 ≤ c ∧ c ≤ 127

/-- The exact weighted sum the checksum of `asciiData` is meant to reduce:
the start code plus the position-weighted codes of the characters. -/
def exactSum (asciiData : List Int) : Int :=
  StartCodeForCodeSet (startSetOf asciiData)
    + weightedSum (encodeLoop asciiData (startSetOf asciiData) []) 1

/-- The sequence the specification gives for a string `c1..cn` over `32..127`:
`[104, c1-32, ..., cn-32, k, 106]` with `k` the checksum `specChecksumB`. -/
def specEncodeB (asciiData : List Int) : List Int :=
  104 :: asciiData.map (fun c => c - 32) ++ [specChecksumB asciiData, 106]

/-- The table entry `CPatterns[code][j]` as a plain value (`0` outside the
table). -/
def slot (code : Int) (j : Nat) : Int :=
  (CPatterns.getD code.toNat []).getD j 0

/-- The number of modules of a code: the sum of its eight slots. -/
def codeModules (code : Int) : Int :=
  slot code 0 + slot code 1 + slot code 2 + slot code 3 + slot code 4 + slot code 5
    + slot code 6 + slot code 7

/-- The sum of the slots `0 .. t-1` of a code. -/
def slotsBefore (code : Int) (t : Nat) : Int :=
  ((List.range t).map (slot code)).sum

/-- The other codeset. -/
def CodeSet.other : CodeSet → CodeSet
  | CodeSet.CodeA => CodeSet.CodeB
  | CodeSet.CodeB => CodeSet.CodeA

/-- The character a data code `v` denotes in a codeset: in set A, `v + 32` if
`v < 64` and `v - 64` otherwise; in set B, `v + 32`. -/
def decodeData (cs : CodeSet) (v : Int) : Int :=
  match cs with
  | CodeSet.CodeA => if v < 64 then v + 32 else v - 64
  | CodeSet.CodeB => v + 32

/-- The reference decoder on the codes between start code and checksum; the
flag says that the previous code was a Shift (98). -/
def decodeBody : CodeSet → Bool → List Int → List Int
  | _, _, [] => []
  | cs, true, v :: rest => decodeData cs.other v :: decodeBody cs false rest
  | cs, false, v :: rest =>
    if v = 98 then decodeBody cs true rest
    else if v = 100 ∧ cs = CodeSet.CodeA then decodeBody CodeSet.CodeB false rest
    else if v = 101 ∧ cs = CodeSet.CodeB then decodeBody CodeSet.CodeA false rest
    else decodeData cs v :: decodeBody cs false rest

/-- The reference decoder: the start code selects the set (103 set A, 104 set
B), the checksum and the stop code are not read. -/
def referenceDecode (s : List Int) : List Int :=
  match s with
  | [] => []
  | start :: rest =>
    decodeBody (if start = 103 then CodeSet.CodeA else CodeSet.CodeB) false
      rest.dropLast.dropLast

/-- The pixel in column `x` of row `y`: `pixels[y * width + x]`. -/
def Code128Bitmap.pixel (bm : Code128Bitmap) (x y : Int) : Nat :=
  bm.pixels.getD (y * bm.width + x).toNat 0

/-- A pixel vector of a `W` by `H` image in which exactly the columns that
satisfy `P` hold the mark value, in every row, and all others the background
value. -/
def Canvas (W H : Int) (px : List Nat) (P : Int → Prop) : Prop :=
  (px.length : Int) = W * H
    ∧ ∀ x y : Int, 0 ≤ x → x < W → 0 ≤ y → y < H →
        (P x → px.getD (y * W + x).toNat 0 = markPixel)
          ∧ (¬ P x → px.getD (y * W + x).toNat 0 = backgroundPixel)

/-- Column `x` lies in one of the four bar spans of a symbol that starts at
column `c`: bar `j` starts `barWeight * (slots 0 .. 2j-1)` after `c` and is
`barWeight * slot (2j)` columns wide. -/
def markedByCode (code barWeight c x : Int) : Prop :=
  ∃ j : Nat, j < 4 ∧ c + barWeight * slotsBefore code (2 * j) ≤ x
    ∧ x < c + barWeight * slotsBefore code (2 * j) + barWeight * slot code (2 * j)

/-- Column `x` lies in a bar span of one of the symbols laid out one after the
other from column `c` on. -/
def markedBy : List Int → Int → Int → Int → Prop
  | [], _, _, _ => False
  | code :: rest, barWeight, c, x =>
    markedByCode code barWeight c x
      ∨ markedBy rest barWeight (c + barWeight * codeModules code) x

/-- The number of modules of a sequence of codes. -/
def totalModules (codes : List Int) : Int :=
  (codes.map codeModules).sum

/-- The module count `(L - 3) * 11 + 35` of the code sequence of a string, in
exact arithmetic. -/
def exactModules (asciiData : List Int) : Int :=
  (((StringToCode128 asciiData).length : Int) - 3) * 11 + 35

/-- The width before the quiet zone is added: `((L - 3) * 11 + 35) * barWeight`. -/
def baseWidth (asciiData : List Int) (barWeight : Int) : Int :=
  exactModules asciiData * barWeight

/-- The quiet margin on one side: `10 * barWeight` if requested, else `0`. -/
def quietMargin (barWeight : Int) (addQuietZone : Bool) : Int :=
  if addQuietZone then 10 * barWeight else 0

/-- The width of the image: the base width plus the margin on both sides. -/
def exactWidth (asciiData : List Int) (barWeight : Int) (addQuietZone : Bool) : Int :=
  baseWidth asciiData barWeight + 2 * quietMargin barWeight addQuietZone

/-- The height `floor(3 * w / 10) + 1` for the base width `w`. -/
def exactHeight (asciiData : List Int) (barWeight : Int) : Int :=
  3 * baseWidth asciiData barWeight / 10 + 1

/-- The inputs for which the renderer stays inside defined behaviour: every
code of the sequence is an index of the pattern table, and the pixel count
fits an `int`. -/
def Renderable (asciiData : List Int) (barWeight : Int) (addQuietZone : Bool) : Prop :=
  (∀ v ∈ StringToCode128 asciiData, 0 ≤ v ∧ v ≤ 106)
    ∧ exactWidth asciiData barWeight addQuietZone * exactHeight asciiData barWeight < 2 ^ 31

/-- Column `x` lies in a bar span as the specification describes it: symbol
`k` starts at column `m + 11 * k * barWeight`, its bar `j` starts
`barWeight * (slots 0 .. 2j-1)` further and is `barWeight * slot (2j)` wide. -/
def InBarSpan (codes : List Int) (barWeight m x : Int) : Prop :=
  ∃ k j : Nat, k < codes.length ∧ j < 4
    ∧ m + 11 * (k : Int) * barWeight + barWeight * slotsBefore (codes.getD k 0) (2 * j) ≤ x
    ∧ x < m + 11 * (k : Int) * barWeight + barWeight * slotsBefore (codes.getD k 0) (2 * j)
        + barWeight * slot (codes.getD k 0) (2 * j)

/-! ## Machine arithmetic of the checksum -/

theorem toInt_of_range {x : Int} (h1 : -2 ^ 31 ≤ x) (h2 : x < 2 ^ 31) : toInt x = x := by
  unfold toInt
  omega

theorem toInt_range (x : Int) : -2 ^ 31 ≤ toInt x ∧ toInt x < 2 ^ 31 := by
  unfold toInt
  omega

theorem toInt_toInt_add (a b : Int) : toInt (toInt a + b) = toInt (a + b) := by
  unfold toInt
  omega

theorem checksumStep_eq (checksum : Int) (i : Nat) (r : Int) :
    checksumStep checksum i r = toInt (checksum + (i : Int) * r) := by
  have hp : toSizeT (toSizeT (i : Int) * toSizeT r) = ((i : Int) * r) % 2 ^ 64 := by
    unfold toSizeT
    exact (Int.mul_emod _ _ _).symm
  unfold checksumStep
  rw [hp]
  generalize (i : Int) * r = p
  unfold toSizeT toInt
  omega

theorem checksumLoop_toInt (rest : List Int) (i : Nat) (a : Int) :
    checksumLoop rest i (toInt a) = toInt (a + weightedSum rest i) := by
  induction rest generalizing i a with
  | nil => simp [checksumLoop, weightedSum]
  | cons r rest ih =>
    simp only [checksumLoop, weightedSum]
    rw [checksumStep_eq, toInt_toInt_add, ih, add_assoc]

/-! ## The per-character decision -/

theorem CodesForChar_of_compatible (c la : Int) (cs : CodeSet)
    (h : CharCompatibleWithCodeset c cs = true) :
    CodesForChar c la cs = ({ codes := [CodeValueForChar c], length := 1 }, cs) := by
  simp [CodesForChar, CodesForChar.shifter, h]

theorem CodesForChar_of_shift (c la : Int) (cs : CodeSet)
    (h : CharCompatibleWithCodeset c cs = false)
    (hla : la = -1 ∨ CharCompatibleWithCodeset la cs = true) :
    CodesForChar c la cs = ({ codes := [98, CodeValueForChar c], length := 2 }, cs) := by
  rcases hla with hla | hla <;>
    simp [CodesForChar, CodesForChar.shifter, h, hla, CShift]

theorem CodesForChar_of_switch (c la : Int) (cs : CodeSet)
    (h : CharCompatibleWithCodeset c cs = false) (hla : la ≠ -1)
    (hl : CharCompatibleWithCodeset la cs = false) :
    CodesForChar c la cs =
      ({ codes := [if cs = CodeSet.CodeA then 100 else 101, CodeValueForChar c], length := 2 },
        if cs = CodeSet.CodeA then CodeSet.CodeB else CodeSet.CodeA) := by
  cases cs <;> simp [CodesForChar, CodesForChar.shifter, h, hla, hl, CCodeA, CCodeB]

/-! ## The encoding loop -/

/-- The three outcomes of `CodesForChar`: one data code, or a Shift or switch
code followed by the data code. -/
theorem CodesForChar_cases (c la : Int) (cs : CodeSet) :
    (CodesForChar c la cs).1 = { codes := [CodeValueForChar c], length := 1 }
      ∨ ∃ sh : Int, (sh = 98 ∨ sh = 100 ∨ sh = 101)
          ∧ (CodesForChar c la cs).1 = { codes := [sh, CodeValueForChar c], length := 2 } := by
  cases h : CharCompatibleWithCodeset c cs with
  | true => exact Or.inl (by rw [CodesForChar_of_compatible c la cs h])
  | false =>
    right
    by_cases hla : la = -1 ∨ CharCompatibleWithCodeset la cs = true
    · exact ⟨98, Or.inl rfl, by rw [CodesForChar_of_shift c la cs h hla]⟩
    · have h1 : la ≠ -1 := fun e => hla (Or.inl e)
      have h2 : CharCompatibleWithCodeset la cs = false := by
        cases h3 : CharCompatibleWithCodeset la cs with
        | true => exact absurd (Or.inr h3) hla
        | false => rfl
      refine ⟨if cs = CodeSet.CodeA then 100 else 101, ?_, by
        rw [CodesForChar_of_switch c la cs h h1 h2]⟩
      cases cs <;> simp

/-- The codes one iteration of the loop pushes are exactly the assigned
entries of the result struct. -/
theorem CodesForChar_pushed (c la : Int) (cs : CodeSet) (results : List Int) :
    (if (CodesForChar c la cs).1.length > 1 then
        (results ++ [(CodesForChar c la cs).1.codes.getD 0 0])
          ++ [(CodesForChar c la cs).1.codes.getD 1 0]
      else results ++ [(CodesForChar c la cs).1.codes.getD 0 0])
      = results ++ (CodesForChar c la cs).1.codes := by
  rcases CodesForChar_cases c la cs with h | ⟨sh, -, h⟩ <;> rw [h] <;> simp

theorem encodeLoop_cons (c : Int) (rest : List Int) (cs : CodeSet) (results : List Int) :
    encodeLoop (c :: rest) cs results =
      encodeLoop rest (CodesForChar c (nextcharOf rest) cs).2
        (results ++ (CodesForChar c (nextcharOf rest) cs).1.codes) := by
  rw [← CodesForChar_pushed]
  rfl

theorem encodeLoop_append (asciiData : List Int) (cs : CodeSet) (results : List Int) :
    encodeLoop asciiData cs results = results ++ encodeLoop asciiData cs [] := by
  induction asciiData generalizing cs results with
  | nil => simp [encodeLoop]
  | cons c rest ih =>
    rw [encodeLoop_cons, encodeLoop_cons, ih, ih _ ([] ++ _)]
    simp

theorem encodeLoop_cons_nil (c : Int) (rest : List Int) (cs : CodeSet) :
    encodeLoop (c :: rest) cs [] =
      (CodesForChar c (nextcharOf rest) cs).1.codes
        ++ encodeLoop rest (CodesForChar c (nextcharOf rest) cs).2 [] := by
  rw [encodeLoop_cons, encodeLoop_append]
  simp

theorem CodesForChar_codes_length (c la : Int) (cs : CodeSet) :
    1 ≤ (CodesForChar c la cs).1.codes.length ∧ (CodesForChar c la cs).1.codes.length ≤ 2 := by
  rcases CodesForChar_cases c la cs with h | ⟨sh, -, h⟩ <;> rw [h] <;> simp

theorem encodeLoop_length (asciiData : List Int) (cs : CodeSet) :
    asciiData.length ≤ (encodeLoop asciiData cs []).length
      ∧ (encodeLoop asciiData cs []).length ≤ 2 * asciiData.length := by
  induction asciiData generalizing cs with
  | nil => simp [encodeLoop]
  | cons c rest ih =>
    rw [encodeLoop_cons_nil, List.length_append, List.length_cons]
    have h1 := CodesForChar_codes_length c (nextcharOf rest) cs
    have h2 := ih (CodesForChar c (nextcharOf rest) cs).2
    omega

theorem StartCodeForCodeSet_cases (cs : CodeSet) :
    StartCodeForCodeSet cs = 103 ∨ StartCodeForCodeSet cs = 104 := by
  cases cs <;> simp [StartCodeForCodeSet, CStartA, CStartB]

/-- The shape of every produced sequence: start code, the codes of the
characters, the checksum of the wrapped weighted sum, stop code. -/
theorem StringToCode128_shape (asciiData : List Int) :
    StringToCode128 asciiData =
      StartCodeForCodeSet (startSetOf asciiData)
        :: encodeLoop asciiData (startSetOf asciiData) []
        ++ [Int.tmod (toInt (StartCodeForCodeSet (startSetOf asciiData)
              + weightedSum (encodeLoop asciiData (startSetOf asciiData) []) 1)) 103, 106] := by
  have hs : StartCodeForCodeSet (startSetOf asciiData)
      = toInt (StartCodeForCodeSet (startSetOf asciiData)) := by
    rcases StartCodeForCodeSet_cases (startSetOf asciiData) with h | h <;> rw [h] <;> rfl
  unfold StringToCode128
  simp only []
  rw [encodeLoop_append]
  simp only [List.singleton_append, List.drop_succ_cons, List.drop_zero, List.getD_cons_zero,
    StopCode, CStop, List.append_assoc, List.cons_append, List.nil_append]
  congr 3
  rw [hs, checksumLoop_toInt, ← hs]

/-! ## Access to the parts of a sequence `start :: body ++ [checksum, stop]` -/

theorem shape_length (start ck stop : Int) (body : List Int) :
    (start :: body ++ [ck, stop]).length = body.length + 3 := by
  simp

theorem shape_getD_checksum (start ck stop : Int) (body : List Int) :
    (start :: body ++ [ck, stop]).getD ((start :: body ++ [ck, stop]).length - 2) 0 = ck := by
  have h : (start :: body ++ [ck, stop]).length - 2 = (start :: body).length := by simp
  rw [h, List.getD_append_right _ _ _ _ (le_refl _)]
  simp

theorem shape_getD_stop (start ck stop : Int) (body : List Int) :
    (start :: body ++ [ck, stop]).getD ((start :: body ++ [ck, stop]).length - 1) 0 = stop := by
  have h : (start :: body ++ [ck, stop]).length - 1 = (start :: body).length + 1 := by simp
  rw [h, List.getD_append_right _ _ _ _ (Nat.le_succ _)]
  simp

theorem shape_getD_body (start ck stop : Int) (body : List Int) (j : Nat)
    (hj : j < body.length) :
    (start :: body ++ [ck, stop]).getD (j + 1) 0 = body.getD j 0 := by
  rw [List.cons_append, List.getD_cons_succ, List.getD_append _ _ _ _ hj]

/-! ## Weighted sums -/

theorem sum_Icc_one (n : Nat) (f : Nat → Int) :
    ∑ i in Finset.Icc 1 n, f i = ∑ j in Finset.range n, f (j + 1) := by
  rw [← Nat.Ico_succ_right, Finset.sum_Ico_eq_sum_range]
  simp [add_comm]

theorem weightedSum_eq_sum (body : List Int) (k : Nat) :
    weightedSum body k = ∑ j in Finset.range body.length, ((j + k : Nat) : Int) * body.getD j 0 := by
  induction body generalizing k with
  | nil => simp [weightedSum]
  | cons r rest ih =>
    rw [List.length_cons, Finset.sum_range_succ', weightedSum, ih (k + 1)]
    simp only [List.getD_cons_succ, List.getD_cons_zero, zero_add]
    rw [add_comm]
    congr 1
    apply Finset.sum_congr rfl
    intro j _
    congr 2
    omega

theorem recomputedChecksum_shape (start ck stop : Int) (body : List Int) :
    recomputedChecksum (start :: body ++ [ck, stop]) = (start + weightedSum body 1) % 103 := by
  unfold recomputedChecksum
  rw [shape_length, Nat.add_sub_cancel, sum_Icc_one, weightedSum_eq_sum]
  congr 2
  apply Finset.sum_congr rfl
  intro j hj
  rw [shape_getD_body _ _ _ _ _ (Finset.mem_range.mp hj)]

theorem specChecksumB_eq (asciiData : List Int) :
    specChecksumB asciiData
      = (104 + weightedSum (asciiData.map (fun c => c - 32)) 1) % 103 := by
  unfold specChecksumB
  rw [sum_Icc_one, weightedSum_eq_sum, List.length_map]
  congr 2
  apply Finset.sum_congr rfl
  intro j hj
  have hj2 : j < asciiData.length := Finset.mem_range.mp hj
  rw [Nat.add_sub_cancel, List.getD_eq_getElem _ _ hj2,
    List.getD_eq_getElem _ _ (by simpa using hj2)]
  simp

theorem weightedSum_replicate (n : Nat) (v : Int) (k : Nat) :
    2 * weightedSum (List.replicate n v) k = v * ((n : Int) * (2 * (k : Int) + (n : Int) - 1)) := by
  induction n generalizing k with
  | zero => simp [weightedSum]
  | succ n ih =>
    rw [List.replicate_succ, weightedSum, mul_add, ih (k + 1)]
    push_cast
    ring

theorem weightedSum_nonneg (body : List Int) (k : Nat) (h : ∀ v ∈ body, 0 ≤ v) :
    0 ≤ weightedSum body k := by
  induction body generalizing k with
  | nil => simp [weightedSum]
  | cons r rest ih =>
    rw [weightedSum]
    have h1 : 0 ≤ r := h r (List.mem_cons_self _ _)
    have h2 := ih (k + 1) (fun v hv => h v (List.mem_cons_of_mem _ hv))
    have h3 : (0 : Int) ≤ (k : Int) * r := mul_nonneg (Int.ofNat_nonneg k) h1
    omega

/-! ## Strings that stay in codeset B -/

theorem CodesetAllowedForChar_ne_A_of_ge (c : Int) (h : 32 ≤ c) :
    CodesetAllowedForChar c ≠ CodeSetAllowed.CodeA := by
  unfold CodesetAllowedForChar
  split
  · simp
  · split
    · omega
    · simp

theorem CharCompatibleWithCodeset_B_of_ge (c : Int) (h : 32 ≤ c) :
    CharCompatibleWithCodeset c CodeSet.CodeB = true := by
  have h1 := CodesetAllowedForChar_ne_A_of_ge c h
  unfold CharCompatibleWithCodeset
  cases h2 : CodesetAllowedForChar c <;> simp_all

theorem CodeValueForChar_of_ge (c : Int) (h : 32 ≤ c) : CodeValueForChar c = c - 32 := by
  unfold CodeValueForChar
  rw [if_pos h]

theorem encodeLoop_of_ge (asciiData : List Int) (h : ∀ c ∈ asciiData, 32 ≤ c) :
    encodeLoop asciiData CodeSet.CodeB [] = asciiData.map (fun c => c - 32) := by
  induction asciiData with
  | nil => rfl
  | cons c rest ih =>
    have hc : 32 ≤ c := h c (List.mem_cons_self _ _)
    rw [encodeLoop_cons_nil,
      CodesForChar_of_compatible c _ _ (CharCompatibleWithCodeset_B_of_ge c hc),
      ih (fun d hd => h d (List.mem_cons_of_mem _ hd)), CodeValueForChar_of_ge c hc]
    rfl

theorem GetBestStartSet_of_ne_A (csa1 csa2 : CodeSetAllowed)
    (h1 : csa1 ≠ CodeSetAllowed.CodeA) (h2 : csa2 ≠ CodeSetAllowed.CodeA) :
    GetBestStartSet csa1 csa2 = CodeSet.CodeB := by
  cases csa1 <;> cases csa2 <;> first | rfl | contradiction

theorem startSetOf_of_ge (asciiData : List Int) (h : ∀ c ∈ asciiData, 32 ≤ c) :
    startSetOf asciiData = CodeSet.CodeB := by
  unfold startSetOf
  apply GetBestStartSet_of_ne_A
  · split
    · rename_i hl
      apply CodesetAllowedForChar_ne_A_of_ge
      rw [List.getD_eq_getElem _ _ hl]
      exact h _ (List.getElem_mem _)
    · simp
  · split
    · rename_i hl
      apply CodesetAllowedForChar_ne_A_of_ge
      rw [List.getD_eq_getElem _ _ hl]
      exact h _ (List.getElem_mem _)
    · simp

/-- A string whose characters are all at least 32 is encoded in codeset B, one
code per character; the checksum is that of the wrapped weighted sum. -/
theorem StringToCode128_of_ge (asciiData : List Int) (h : ∀ c ∈ asciiData, 32 ≤ c) :
    StringToCode128 asciiData =
      104 :: asciiData.map (fun c => c - 32)
        ++ [Int.tmod (toInt (104 + weightedSum (asciiData.map (fun c => c - 32)) 1)) 103, 106] := by
  rw [StringToCode128_shape, startSetOf_of_ge asciiData h, encodeLoop_of_ge asciiData h]
  rfl

/-! ## The string of 6908 letters `z` -/

theorem weightedSum_replicate_z : weightedSum (List.replicate 6908 90) 1 = 2147731740 := by
  have h := weightedSum_replicate 6908 90 1
  norm_num at h
  omega

theorem StringToCode128_replicate_z :
    StringToCode128 (List.replicate 6908 122) = 104 :: List.replicate 6908 90 ++ [-14, 106] := by
  rw [StringToCode128_of_ge _ (by
    intro c hc
    rw [List.eq_of_mem_replicate hc]
    decide)]
  rw [List.map_replicate]
  have h1 : (122 : Int) - 32 = 90 := by norm_num
  rw [h1, weightedSum_replicate_z]
  have h2 : Int.tmod (toInt (104 + 2147731740)) 103 = -14 := by decide
  rw [h2]

/-! ## Code ranges for ASCII input -/

theorem CodeValueForChar_range (c : Int) (h0 : 0 ≤ c) (h1 : c ≤ 127) :
    0 ≤ CodeValueForChar c ∧ CodeValueForChar c ≤ 95 := by
  unfold CodeValueForChar
  split <;> omega

theorem CodesForChar_codes_body (c la : Int) (cs : CodeSet) (h0 : 0 ≤ c) (h1 : c ≤ 127) :
    ∀ v ∈ (CodesForChar c la cs).1.codes, IsBodyCode v := by
  have hv := CodeValueForChar_range c h0 h1
  intro v hm
  rcases CodesForChar_cases c la cs with h | ⟨sh, hsh, h⟩
  · rw [h] at hm
    simp only [List.mem_singleton] at hm
    rw [hm]
    exact Or.inl hv
  · rw [h] at hm
    simp only [List.mem_cons, List.mem_singleton, List.not_mem_nil, or_false] at hm
    rcases hm with hm | hm
    · rw [hm]
      exact Or.inr hsh
    · rw [hm]
      exact Or.inl hv

theorem encodeLoop_body (asciiData : List Int) (cs : CodeSet) (h : IsAscii asciiData) :
    ∀ v ∈ encodeLoop asciiData cs [], IsBodyCode v := by
  induction asciiData generalizing cs with
  | nil => simp [encodeLoop]
  | cons c rest ih =>
    intro v hv
    rw [encodeLoop_cons_nil, List.mem_append] at hv
    have hc := h c (List.mem_cons_self _ _)
    rcases hv with hv | hv
    · exact CodesForChar_codes_body c _ cs hc.1 hc.2 v hv
    · exact ih _ (fun d hd => h d (List.mem_cons_of_mem _ hd)) v hv

theorem IsBodyCode.range {v : Int} (h : IsBodyCode v) : 0 ≤ v ∧ v ≤ 101 := by
  unfold IsBodyCode at h
  omega

theorem exactSum_nonneg (asciiData : List Int) (h : IsAscii asciiData) :
    0 ≤ exactSum asciiData := by
  unfold exactSum
  have h1 := weightedSum_nonneg (encodeLoop asciiData (startSetOf asciiData) []) 1
    (fun v hv => (encodeLoop_body asciiData _ h v hv).range.1)
  rcases StartCodeForCodeSet_cases (startSetOf asciiData) with h2 | h2 <;> omega

/-- While the exact weighted sum fits an `int`, the sequence ends in the exact
sum modulo 103 and the stop code. -/
theorem StringToCode128_of_no_overflow (asciiData : List Int) (h : IsAscii asciiData)
    (hs : exactSum asciiData < 2 ^ 31) :
    StringToCode128 asciiData =
      StartCodeForCodeSet (startSetOf asciiData)
        :: encodeLoop asciiData (startSetOf asciiData) []
        ++ [exactSum asciiData % 103, 106] := by
  have h0 := exactSum_nonneg asciiData h
  rw [StringToCode128_shape, ← exactSum, toInt_of_range (by omega) hs,
    Int.tmod_eq_emod h0 (by norm_num)]

/-- Checksum round trip, for inputs whose exact weighted sum fits an `int`. -/
theorem checksum_round_trip_of_no_overflow (asciiData : List Int) (h : IsAscii asciiData)
    (hs : exactSum asciiData < 2 ^ 31) :
    (StringToCode128 asciiData).getD ((StringToCode128 asciiData).length - 2) 0
      = recomputedChecksum (StringToCode128 asciiData) := by
  rw [StringToCode128_of_no_overflow asciiData h hs, shape_getD_checksum,
    recomputedChecksum_shape, ← exactSum]

/-- The well-formed sequence invariant, for inputs whose exact weighted sum
fits an `int`. -/
theorem wellFormed_of_no_overflow (asciiData : List Int) (h : IsAscii asciiData)
    (hs : exactSum asciiData < 2 ^ 31) :
    WellFormedSequence (StringToCode128 asciiData) := by
  have hb := encodeLoop_body asciiData (startSetOf asciiData) h
  have hst := StartCodeForCodeSet_cases (startSetOf asciiData)
  have hck : 0 ≤ exactSum asciiData % 103 ∧ exactSum asciiData % 103 ≤ 102 := by omega
  rw [StringToCode128_of_no_overflow asciiData h hs]
  refine ⟨by simp, by simpa using hst, shape_getD_stop _ _ _ _, ?_, ?_, ?_⟩
  · rw [shape_getD_checksum]
    exact hck
  · intro i hi0 hi
    rw [shape_length] at hi
    obtain ⟨j, rfl⟩ : ∃ j, i = j + 1 := ⟨i - 1, by omega⟩
    have hj : j < (encodeLoop asciiData (startSetOf asciiData) []).length := by omega
    rw [shape_getD_body _ _ _ _ _ hj, List.getD_eq_getElem _ _ hj]
    exact hb _ (List.getElem_mem _)
  · intro v hv
    simp only [List.cons_append, List.mem_cons, List.mem_append, List.not_mem_nil,
      or_false] at hv
    rcases hv with hv | hv | hv | hv
    · rcases hst with e | e <;> omega
    · have := (hb v hv).range
      omega
    · omega
    · omega

/-! ## The start codeset -/

theorem GetBestStartSet_eq_vote (csa1 csa2 : CodeSetAllowed) :
    GetBestStartSet csa1 csa2
      = if 0 < specVoteOfAllowance csa1 + specVoteOfAllowance csa2 then CodeSet.CodeA
        else CodeSet.CodeB := by
  cases csa1 <;> cases csa2 <;> rfl

theorem startSetOf_eq_vote (asciiData : List Int) :
    startSetOf asciiData
      = if 0 < specStartVote asciiData then CodeSet.CodeA else CodeSet.CodeB := by
  match asciiData with
  | [] => rfl
  | [c] =>
    have h1 : startSetOf [c]
        = GetBestStartSet (CodesetAllowedForChar c) CodeSetAllowed.CodeAorB := by
      simp [startSetOf]
    have h2 : specStartVote [c] = specVoteOfAllowance (CodesetAllowedForChar c)
        + specVoteOfAllowance CodeSetAllowed.CodeAorB := by
      simp [specStartVote, specVoteOfChar, specVoteOfAllowance]
    rw [h1, h2, GetBestStartSet_eq_vote]
  | c :: d :: rest =>
    have h1 : startSetOf (c :: d :: rest)
        = GetBestStartSet (CodesetAllowedForChar c) (CodesetAllowedForChar d) := by
      simp [startSetOf]
    have h2 : specStartVote (c :: d :: rest) = specVoteOfAllowance (CodesetAllowedForChar c)
        + specVoteOfAllowance (CodesetAllowedForChar d) := by
      simp [specStartVote, specVoteOfChar]
    rw [h1, h2, GetBestStartSet_eq_vote]

/-! ## A length bound that excludes overflow -/

theorem weightedSum_le (body : List Int) (k : Nat) (h : ∀ v ∈ body, v ≤ 101) :
    2 * weightedSum body k
      ≤ 101 * ((body.length : Int) * (2 * (k : Int) + (body.length : Int) - 1)) := by
  induction body generalizing k with
  | nil => simp [weightedSum]
  | cons r rest ih =>
    have h1 : r ≤ 101 := h r (List.mem_cons_self _ _)
    have h2 := ih (k + 1) (fun v hv => h v (List.mem_cons_of_mem _ hv))
    have h3 : (k : Int) * r ≤ (k : Int) * 101 :=
      mul_le_mul_of_nonneg_left h1 (Int.ofNat_nonneg k)
    rw [weightedSum, List.length_cons]
    push_cast at h2 ⊢
    nlinarith [h2, h3]

/-- Strings of at most 3260 characters over `0..127` cannot overflow the
checksum accumulator. -/
theorem exactSum_lt_of_length_le (asciiData : List Int) (h : IsAscii asciiData)
    (hn : asciiData.length ≤ 3260) : exactSum asciiData < 2 ^ 31 := by
  have hb := encodeLoop_body asciiData (startSetOf asciiData) h
  have hl := (encodeLoop_length asciiData (startSetOf asciiData)).2
  have hw := weightedSum_le (encodeLoop asciiData (startSetOf asciiData) []) 1
    (fun v hv => (hb v hv).range.2)
  have hst := StartCodeForCodeSet_cases (startSetOf asciiData)
  unfold exactSum
  generalize (encodeLoop asciiData (startSetOf asciiData) []).length = L at hl hw
  have hL : (L : Int) ≤ 6520 := by
    have : L ≤ 6520 := by omega
    exact_mod_cast this
  have hL0 : (0 : Int) ≤ (L : Int) := Int.ofNat_nonneg L
  have hprod : (L : Int) * (2 * ((1 : Nat) : Int) + (L : Int) - 1) ≤ 6520 * 6521 := by
    push_cast
    nlinarith [hL, hL0]
  rcases hst with e | e <;> rw [e] <;> omega

theorem IsAscii_replicate_z : IsAscii (List.replicate 6908 122) := by
  intro c hc
  rw [List.eq_of_mem_replicate hc]
  decide

/-- Strings over `32..127` are encoded as the specification says, as long as
the exact weighted sum fits an `int`. -/
theorem StringToCode128_codesetB_of_no_overflow (asciiData : List Int)
    (h : ∀ c ∈ asciiData, 32 ≤ c ∧ c ≤ 127)
    (hs : 104 + weightedSum (asciiData.map (fun c => c - 32)) 1 < 2 ^ 31) :
    StringToCode128 asciiData = specEncodeB asciiData := by
  have h0 : 0 ≤ weightedSum (asciiData.map (fun c => c - 32)) 1 := by
    apply weightedSum_nonneg
    intro v hv
    obtain ⟨c, hc, rfl⟩ := List.mem_map.mp hv
    have := (h c hc).1
    omega
  rw [StringToCode128_of_ge asciiData (fun c hc => (h c hc).1), specEncodeB, specChecksumB_eq,
    toInt_of_range (by omega) hs, Int.tmod_eq_emod (by omega) (by norm_num)]

/-! ## The claims -/

/-- C1 (checksum round trip), evaluated on the string of 6908 letters `z`, all
of them in `0..127`: the exact weighted sum is `2147731844 > 2^31 - 1`, the
`int` accumulator wraps, and the stored second-to-last element is `-14` while
the weighted sum recomputed from the sequence is `49` modulo 103. -/
theorem checksum_round_trip_overflow :
    IsAscii (List.replicate 6908 122)
      ∧ (StringToCode128 (List.replicate 6908 122)).getD
          ((StringToCode128 (List.replicate 6908 122)).length - 2) 0 = -14
      ∧ recomputedChecksum (StringToCode128 (List.replicate 6908 122)) = 49 := by
  refine ⟨IsAscii_replicate_z, ?_, ?_⟩
  · rw [StringToCode128_replicate_z, shape_getD_checksum]
  · rw [StringToCode128_replicate_z, recomputedChecksum_shape, weightedSum_replicate_z]
    decide

/-- C2 (well-formed sequence invariant), evaluated on the string of 6908
letters `z`: the sequence has a negative second-to-last element, so it is not
well formed and not every element is a symbol code in `0..106`. -/
theorem wellFormed_fails_on_overflow :
    IsAscii (List.replicate 6908 122)
      ∧ ¬ WellFormedSequence (StringToCode128 (List.replicate 6908 122))
      ∧ ¬ (∀ v ∈ StringToCode128 (List.replicate 6908 122), 0 ≤ v ∧ v ≤ 106) := by
  have hck : (StringToCode128 (List.replicate 6908 122)).getD
      ((StringToCode128 (List.replicate 6908 122)).length - 2) 0 = -14 := by
    rw [StringToCode128_replicate_z, shape_getD_checksum]
  refine ⟨IsAscii_replicate_z, ?_, ?_⟩
  · intro hw
    have h := hw.2.2.2.1.1
    rw [hck] at h
    omega
  · intro hall
    have h := hall (-14) (by
      rw [StringToCode128_replicate_z]
      exact List.mem_append_right _ (List.mem_cons_self _ _))
    omega

/-- C3 (CodesForChar, switch case): when neither the character nor an existing
lookahead is compatible with the current codeset, the codes are the switch code
(100 from A, 101 from B) followed by the code value, and the codeset becomes
the other one. -/
theorem CodesForChar_switch_case (c la : Int) (cs : CodeSet)
    (hc : CharCompatibleWithCodeset c cs = false) (hla : la ≠ -1)
    (hl : CharCompatibleWithCodeset la cs = false) :
    (cs = CodeSet.CodeA → CodesForChar c la cs
        = ({ codes := [100, CodeValueForChar c], length := 2 }, CodeSet.CodeB))
      ∧ (cs = CodeSet.CodeB → CodesForChar c la cs
        = ({ codes := [101, CodeValueForChar c], length := 2 }, CodeSet.CodeA)) := by
  rw [CodesForChar_of_switch c la cs hc hla hl]
  constructor <;> intro h <;> rw [h] <;> rfl

theorem CodesForChar_switch_case_witness :
    CodesForChar 97 98 CodeSet.CodeA
        = ({ codes := [100, 65], length := 2 }, CodeSet.CodeB)
      ∧ CodesForChar 10 13 CodeSet.CodeB
        = ({ codes := [101, 74], length := 2 }, CodeSet.CodeA) :=
  ⟨(CodesForChar_switch_case 97 98 CodeSet.CodeA (by decide) (by decide) (by decide)).1 rfl,
    (CodesForChar_switch_case 10 13 CodeSet.CodeB (by decide) (by decide) (by decide)).2 rfl⟩

/-- C4 (CodesForChar, shift case): when the character is not compatible with
the current codeset and there is no lookahead (`-1`) or the lookahead is
compatible, the codes are Shift (98) followed by the code value, and the
codeset is unchanged. -/
theorem CodesForChar_shift_case (c la : Int) (cs : CodeSet)
    (hc : CharCompatibleWithCodeset c cs = false)
    (hla : la = -1 ∨ CharCompatibleWithCodeset la cs = true) :
    CodesForChar c la cs = ({ codes := [98, CodeValueForChar c], length := 2 }, cs) :=
  CodesForChar_of_shift c la cs hc hla

theorem CodesForChar_shift_case_witness :
    CodesForChar 97 (-1) CodeSet.CodeA
        = ({ codes := [98, 65], length := 2 }, CodeSet.CodeA)
      ∧ CodesForChar 10 65 CodeSet.CodeB
        = ({ codes := [98, 74], length := 2 }, CodeSet.CodeB) :=
  ⟨CodesForChar_shift_case 97 (-1) CodeSet.CodeA (by decide) (Or.inl rfl),
    CodesForChar_shift_case 10 65 CodeSet.CodeB (by decide) (Or.inr (by decide))⟩

/-- C5 (CodesForChar, compatible case): compatibility means that the allowance
of the character is A-or-B or equals the codeset, and a compatible character
yields the single code `CodeValueForChar c` with the codeset unchanged, for
every lookahead. -/
theorem CodesForChar_compatible_case (c la : Int) (cs : CodeSet) :
    (CharCompatibleWithCodeset c cs = true ↔
        (CodesetAllowedForChar c = CodeSetAllowed.CodeAorB
          ∨ (CodesetAllowedForChar c = CodeSetAllowed.CodeA ∧ cs = CodeSet.CodeA)
          ∨ (CodesetAllowedForChar c = CodeSetAllowed.CodeB ∧ cs = CodeSet.CodeB)))
      ∧ (CharCompatibleWithCodeset c cs = true →
          CodesForChar c la cs = ({ codes := [CodeValueForChar c], length := 1 }, cs)
            ∧ (CodesForChar c la cs).1.codes.length = 1) := by
  constructor
  · unfold CharCompatibleWithCodeset
    cases CodesetAllowedForChar c <;> cases cs <;> simp
  · intro h
    rw [CodesForChar_of_compatible c la cs h]
    exact ⟨rfl, rfl⟩

theorem CodesForChar_compatible_case_witness :
    CodesForChar 65 (-1) CodeSet.CodeA = ({ codes := [33], length := 1 }, CodeSet.CodeA)
      ∧ CodesForChar 97 10 CodeSet.CodeB = ({ codes := [65], length := 1 }, CodeSet.CodeB) :=
  ⟨((CodesForChar_compatible_case 65 (-1) CodeSet.CodeA).2 (by decide)).1,
    ((CodesForChar_compatible_case 97 10 CodeSet.CodeB).2 (by decide)).1⟩

/-- C6 (start codeset vote): the first element of the produced sequence is 103
exactly when the vote over the first two characters is strictly positive, and
104 exactly when it is not (ties included). -/
theorem start_code_by_vote (asciiData : List Int) :
    ((StringToCode128 asciiData).getD 0 0 = 103 ↔ 0 < specStartVote asciiData)
      ∧ ((StringToCode128 asciiData).getD 0 0 = 104 ↔ ¬ 0 < specStartVote asciiData) := by
  rw [StringToCode128_shape, List.cons_append, List.getD_cons_zero, startSetOf_eq_vote]
  by_cases h : 0 < specStartVote asciiData
  · simp [h, StartCodeForCodeSet, CStartA]
  · simp [h, StartCodeForCodeSet, CStartB]

/-- C7 (strings compatible with codeset B), evaluated: the string `A` yields
`[104, 33, 34, 106]`, but on the string of 6908 letters `z`, all in `32..127`,
the code yields checksum `-14` where the specification formula gives `49`. -/
theorem codesetB_encoding_overflow :
    StringToCode128 [65] = [104, 33, 34, 106]
      ∧ (∀ c ∈ List.replicate 6908 (122 : Int), 32 ≤ c ∧ c ≤ 127)
      ∧ StringToCode128 (List.replicate 6908 122) = 104 :: List.replicate 6908 90 ++ [-14, 106]
      ∧ specEncodeB (List.replicate 6908 122) = 104 :: List.replicate 6908 90 ++ [49, 106]
      ∧ StringToCode128 (List.replicate 6908 122) ≠ specEncodeB (List.replicate 6908 122) := by
  have hspec : specEncodeB (List.replicate 6908 122)
      = 104 :: List.replicate 6908 90 ++ [49, 106] := by
    have h1 : (122 : Int) - 32 = 90 := by norm_num
    have h2 : ((104 : Int) + 2147731740) % 103 = 49 := by decide
    rw [specEncodeB, specChecksumB_eq, List.map_replicate, h1, weightedSum_replicate_z, h2]
  refine ⟨by decide, ?_, StringToCode128_replicate_z, hspec, ?_⟩
  · intro c hc
    rw [List.eq_of_mem_replicate hc]
    decide
  · rw [StringToCode128_replicate_z, hspec]
    intro h
    have h3 := List.append_cancel_left h
    simp at h3

/-- C8 (empty input): the empty string is encoded as `[104, 1, 106]`. -/
theorem StringToCode128_empty : StringToCode128 [] = [104, 1, 106] := by
  decide

/-- C9, as stated, fails: a string holding the byte `0xC8` (character value 200
with unsigned `char`, -56 with signed `char`) is outside `0..127`, and the
entry point returns a four-element sequence for it. -/
theorem Code128Content_accepts_invalid_character :
    (∃ c ∈ [(200 : Int)], c < 0 ∨ 127 < c)
      ∧ (Code128Content.new [200]).GetCodes = [104, 168, 66, 106]
      ∧ (∃ c ∈ [(-56 : Int)], c < 0 ∨ 127 < c)
      ∧ (Code128Content.new [-56]).GetCodes = [103, 8, 8, 106] := by
  refine ⟨⟨200, by simp, by decide⟩, by decide, ⟨-56, by simp, by decide⟩, by decide⟩

/-- C9, amended: the entry point validates nothing and never fails; for every
input string, whatever its character values, it returns a complete sequence: a
start code 103 or 104, one or two codes per input character, a checksum
element and the stop code 106. -/
theorem Code128Content_total (asciiData : List Int) :
    ∃ start ck : Int, ∃ body : List Int,
      (Code128Content.new asciiData).GetCodes = start :: body ++ [ck, 106]
        ∧ (start = 103 ∨ start = 104)
        ∧ asciiData.length ≤ body.length ∧ body.length ≤ 2 * asciiData.length :=
  ⟨_, _, _, StringToCode128_shape asciiData, StartCodeForCodeSet_cases _,
    encodeLoop_length asciiData _⟩

/-- C10 (output length bounds): a string of length `n` is encoded in at least
`n + 3` and at most `2 * n + 3` codes. -/
theorem StringToCode128_length_bounds (asciiData : List Int) :
    asciiData.length + 3 ≤ (StringToCode128 asciiData).length
      ∧ (StringToCode128 asciiData).length ≤ 2 * asciiData.length + 3 := by
  rw [StringToCode128_shape, shape_length]
  have h := encodeLoop_length asciiData (startSetOf asciiData)
  omega

/-! ## The pattern table -/

theorem CPatterns_length : CPatterns.length = 107 := by decide

theorem CPatterns_nodup : CPatterns.Nodup := by decide

theorem CPatterns_row_length : ∀ n, n < 107 → (CPatterns.getD n []).length = 8 := by decide

theorem CPatterns_regular : ∀ n, n < 106 →
    (∀ j, j < 6 → 0 < (CPatterns.getD n []).getD j 0)
      ∧ (CPatterns.getD n []).getD 6 0 = 0 ∧ (CPatterns.getD n []).getD 7 0 = 0
      ∧ (CPatterns.getD n []).getD 0 0 + (CPatterns.getD n []).getD 1 0
        + (CPatterns.getD n []).getD 2 0 + (CPatterns.getD n []).getD 3 0
        + (CPatterns.getD n []).getD 4 0 + (CPatterns.getD n []).getD 5 0
        + (CPatterns.getD n []).getD 6 0 + (CPatterns.getD n []).getD 7 0 = 11 := by
  decide

theorem CPatterns_stop :
    (∀ j, j < 7 → 0 < (CPatterns.getD 106 []).getD j 0)
      ∧ (CPatterns.getD 106 []).getD 7 0 = 0
      ∧ (CPatterns.getD 106 []).getD 0 0 + (CPatterns.getD 106 []).getD 1 0
        + (CPatterns.getD 106 []).getD 2 0 + (CPatterns.getD 106 []).getD 3 0
        + (CPatterns.getD 106 []).getD 4 0 + (CPatterns.getD 106 []).getD 5 0
        + (CPatterns.getD 106 []).getD 6 0 + (CPatterns.getD 106 []).getD 7 0 = 13 := by
  decide

theorem GetCPatterns_eq (code : Int) (j : Nat) (h0 : 0 ≤ code) (h1 : code ≤ 106) (hj : j < 8) :
    GetCPatterns code (j : Int) = some (slot code j) := by
  unfold GetCPatterns slot
  rw [if_pos ⟨h0, by omega, by omega, by omega⟩]
  simp

theorem GetCPatterns_isSome (code j : Int) (w : Int) (h : GetCPatterns code j = some w) :
    0 ≤ code ∧ code ≤ 106 := by
  unfold GetCPatterns at h
  split at h
  · omega
  · simp at h

theorem slot_regular (code : Int) (h0 : 0 ≤ code) (h1 : code ≤ 105) :
    (∀ j, j < 6 → 0 < slot code j) ∧ slot code 6 = 0 ∧ slot code 7 = 0
      ∧ codeModules code = 11 := by
  obtain ⟨n, rfl⟩ := Int.eq_ofNat_of_zero_le h0
  have h := CPatterns_regular n (by omega)
  simpa [slot, codeModules] using h

theorem slot_stop :
    (∀ j, j < 7 → 0 < slot 106 j) ∧ slot 106 7 = 0 ∧ codeModules 106 = 13 := by
  have h := CPatterns_stop
  simpa [slot, codeModules] using h

theorem slot_nonneg (code : Int) (j : Nat) (h0 : 0 ≤ code) (h1 : code ≤ 106) (hj : j < 8) :
    0 ≤ slot code j := by
  by_cases h : code ≤ 105
  · have hr := slot_regular code h0 h
    by_cases h6 : j < 6
    · exact le_of_lt (hr.1 j h6)
    · have : j = 6 ∨ j = 7 := by omega
      rcases this with e | e <;> rw [e] <;> omega
  · have e : code = 106 := by omega
    have hs := slot_stop
    rw [e]
    by_cases h7 : j < 7
    · exact le_of_lt (hs.1 j h7)
    · have : j = 7 := by omega
      rw [this]
      omega

/-! ## The reference decoder -/

theorem CharCompatibleWithCodeset_A_iff (c : Int) :
    CharCompatibleWithCodeset c CodeSet.CodeA = true ↔ c ≤ 95 := by
  unfold CharCompatibleWithCodeset CodesetAllowedForChar
  split
  · simp
    omega
  · split <;> simp <;> omega

theorem CharCompatibleWithCodeset_B_iff (c : Int) :
    CharCompatibleWithCodeset c CodeSet.CodeB = true ↔ 32 ≤ c := by
  unfold CharCompatibleWithCodeset CodesetAllowedForChar
  split
  · simp
    omega
  · split <;> simp <;> omega

theorem decodeData_CodeValueForChar (c : Int) (cs : CodeSet) (h0 : 0 ≤ c)
    (h : CharCompatibleWithCodeset c cs = true) :
    decodeData cs (CodeValueForChar c) = c := by
  cases cs with
  | CodeA =>
    have h2 := (CharCompatibleWithCodeset_A_iff c).mp h
    by_cases h3 : 32 ≤ c
    · rw [CodeValueForChar_of_ge c h3]
      simp only [decodeData]
      rw [if_pos (by omega)]
      omega
    · have h4 : CodeValueForChar c = c + 64 := by
        unfold CodeValueForChar
        rw [if_neg h3]
      rw [h4]
      simp only [decodeData]
      rw [if_neg (by omega)]
      omega
  | CodeB =>
    have h2 := (CharCompatibleWithCodeset_B_iff c).mp h
    rw [CodeValueForChar_of_ge c h2]
    simp only [decodeData]
    omega

theorem CharCompatibleWithCodeset_other (c : Int) (cs : CodeSet)
    (h : CharCompatibleWithCodeset c cs = false) :
    CharCompatibleWithCodeset c cs.other = true := by
  cases cs with
  | CodeA =>
    have h1 : ¬ c ≤ 95 := fun e => by
      rw [(CharCompatibleWithCodeset_A_iff c).mpr e] at h
      exact Bool.noConfusion h
    exact (CharCompatibleWithCodeset_B_iff c).mpr (by omega)
  | CodeB =>
    have h1 : ¬ 32 ≤ c := fun e => by
      rw [(CharCompatibleWithCodeset_B_iff c).mpr e] at h
      exact Bool.noConfusion h
    exact (CharCompatibleWithCodeset_A_iff c).mpr (by omega)

theorem decodeBody_data (cs : CodeSet) (v : Int) (rest : List Int) (h : v ≤ 95) :
    decodeBody cs false (v :: rest) = decodeData cs v :: decodeBody cs false rest := by
  rw [decodeBody, if_neg (by omega), if_neg (by omega), if_neg (by omega)]

theorem decodeBody_encodeLoop (asciiData : List Int) (cs : CodeSet) (h : IsAscii asciiData) :
    decodeBody cs false (encodeLoop asciiData cs []) = asciiData := by
  induction asciiData generalizing cs with
  | nil => rfl
  | cons c rest ih =>
    have hc := h c (List.mem_cons_self _ _)
    have hrest : IsAscii rest := fun d hd => h d (List.mem_cons_of_mem _ hd)
    have hv := CodeValueForChar_range c hc.1 hc.2
    rw [encodeLoop_cons_nil]
    cases hcomp : CharCompatibleWithCodeset c cs with
    | true =>
      rw [CodesForChar_of_compatible c _ cs hcomp]
      simp only [List.singleton_append]
      rw [decodeBody_data cs _ _ hv.2, ih cs hrest, decodeData_CodeValueForChar c cs hc.1 hcomp]
    | false =>
      have hother := decodeData_CodeValueForChar c cs.other hc.1
        (CharCompatibleWithCodeset_other c cs hcomp)
      by_cases hla : nextcharOf rest = -1 ∨ CharCompatibleWithCodeset (nextcharOf rest) cs = true
      · rw [CodesForChar_of_shift c _ cs hcomp hla]
        simp only [List.cons_append, List.nil_append]
        rw [decodeBody, if_pos rfl, decodeBody, ih cs hrest, hother]
      · have h1 : nextcharOf rest ≠ -1 := fun e => hla (Or.inl e)
        have h2 : CharCompatibleWithCodeset (nextcharOf rest) cs = false := by
          cases h3 : CharCompatibleWithCodeset (nextcharOf rest) cs with
          | true => exact absurd (Or.inr h3) hla
          | false => rfl
        rw [CodesForChar_of_switch c _ cs hcomp h1 h2]
        simp only [List.cons_append, List.nil_append]
        cases cs with
        | CodeA =>
          simp only [if_true]
          rw [decodeBody, if_neg (by decide), if_pos ⟨rfl, rfl⟩, decodeBody_data _ _ _ hv.2,
            ih _ hrest]
          rw [show CodeSet.CodeB = CodeSet.CodeA.other from rfl, hother]
        | CodeB =>
          simp only [if_false, reduceCtorEq]
          rw [decodeBody, if_neg (by decide), if_neg (by decide), if_pos ⟨rfl, rfl⟩,
            decodeBody_data _ _ _ hv.2, ih _ hrest]
          rw [show CodeSet.CodeA = CodeSet.CodeB.other from rfl, hother]

theorem referenceDecode_shape (start ck stop : Int) (body : List Int) :
    referenceDecode (start :: body ++ [ck, stop])
      = decodeBody (if start = 103 then CodeSet.CodeA else CodeSet.CodeB) false body := by
  have h : (body ++ [ck, stop]).dropLast.dropLast = body := by
    rw [show body ++ [ck, stop] = (body ++ [ck]) ++ [stop] by simp, List.dropLast_concat,
      List.dropLast_concat]
  rw [List.cons_append, referenceDecode, h]

theorem referenceDecode_StringToCode128 (asciiData : List Int) (h : IsAscii asciiData) :
    referenceDecode (StringToCode128 asciiData) = asciiData := by
  rw [StringToCode128_shape, referenceDecode_shape]
  have hs : (if StartCodeForCodeSet (startSetOf asciiData) = 103 then CodeSet.CodeA
      else CodeSet.CodeB) = startSetOf asciiData := by
    cases startSetOf asciiData <;> simp [StartCodeForCodeSet, CStartA, CStartB]
  rw [hs, decodeBody_encodeLoop asciiData _ h]

/-! ## Single-precision rounding -/

theorem floatQuantumAux_pow (fuel n j : Nat) (h : n < 2 ^ (24 + j)) :
    ∃ i, i ≤ j ∧ floatQuantumAux fuel n = 2 ^ i := by
  induction fuel generalizing n j with
  | zero => exact ⟨0, Nat.zero_le _, rfl⟩
  | succ fuel ih =>
    unfold floatQuantumAux
    by_cases hn : n < 2 ^ 24
    · rw [if_pos hn]
      exact ⟨0, Nat.zero_le _, rfl⟩
    · rw [if_neg hn]
      cases j with
      | zero => exact absurd h hn
      | succ j =>
        have h2 : n / 2 < 2 ^ (24 + j) := by
          have e : 2 ^ (24 + (j + 1)) = 2 * 2 ^ (24 + j) := by
            rw [← Nat.add_assoc, Nat.pow_succ, Nat.mul_comm]
          rw [e] at h
          omega
        obtain ⟨i, hi, hq⟩ := ih (n / 2) j h2
        exact ⟨i + 1, by omega, by rw [hq, Nat.pow_succ, Nat.mul_comm]⟩

theorem floatQuantumAux_le (fuel n : Nat) (hf : n ≤ fuel) (hn : 2 ^ 24 ≤ n) :
    2 ^ 23 * floatQuantumAux fuel n ≤ n := by
  induction fuel generalizing n with
  | zero => omega
  | succ fuel ih =>
    unfold floatQuantumAux
    rw [if_neg (by omega)]
    by_cases h2 : 2 ^ 24 ≤ n / 2
    · have := ih (n / 2) (by omega) h2
      omega
    · have e : floatQuantumAux fuel (n / 2) = 1 := by
        cases fuel with
        | zero => rfl
        | succ fuel =>
          unfold floatQuantumAux
          rw [if_pos (by omega)]
      rw [e]
      omega

theorem floatQuantum_of_lt (n : Nat) (h : n < 2 ^ 24) : floatQuantum n = 1 := by
  unfold floatQuantum
  cases n with
  | zero => rfl
  | succ n =>
    unfold floatQuantumAux
    rw [if_pos h]

theorem roundFloat_of_lt (n : Nat) (h : n < 2 ^ 24) : roundFloat n = n := by
  unfold roundFloat
  rw [floatQuantum_of_lt n h]
  simp [Nat.mod_one]

/-- Rounding to the nearest multiple of `q` stays between the multiples of `q`
around the argument. -/
theorem roundFloat_between (n q lo hi : Nat) (hq : floatQuantum n = q) (hpos : 0 < q)
    (hlo : q ∣ lo) (hhi : q ∣ hi) (h1 : lo ≤ n) (h2 : n ≤ hi) :
    lo ≤ roundFloat n ∧ roundFloat n ≤ hi := by
  obtain ⟨k, rfl⟩ := hlo
  obtain ⟨l, rfl⟩ := hhi
  have hdm := Nat.div_add_mod n q
  have hr := Nat.mod_lt n hpos
  have ha1 : q * k ≤ q * (n / q) :=
    Nat.mul_le_mul_left q ((Nat.le_div_iff_mul_le hpos).mpr (by rw [Nat.mul_comm]; exact h1))
  have hlow : q * k ≤ n / q * q := by rw [Nat.mul_comm (n / q)]; exact ha1
  have hsucc : (n / q + 1) * q = n / q * q + q := by ring
  have hup : n % q ≠ 0 → (n / q + 1) * q ≤ q * l := by
    intro hne
    have hlt : n / q < l := by
      by_contra hc
      have hle : l ≤ n / q := Nat.le_of_not_lt hc
      have := Nat.mul_le_mul_left q hle
      omega
    have := Nat.mul_le_mul_left q (Nat.succ_le_of_lt hlt)
    rw [Nat.mul_comm (n / q + 1)]
    exact this
  have hup0 : n / q * q ≤ q * l := by
    rw [Nat.mul_comm (n / q)]
    omega
  unfold roundFloat
  rw [hq]
  simp only []
  split
  · exact ⟨hlow, hup0⟩
  · rename_i hnlt
    have hne : n % q ≠ 0 := by omega
    split
    · exact ⟨by omega, hup hne⟩
    · split
      · exact ⟨hlow, hup0⟩
      · exact ⟨by omega, hup hne⟩

theorem roundFloat_bounds (n j lo hi : Nat) (hn : n < 2 ^ (24 + j)) (hlo : 2 ^ j ∣ lo)
    (hhi : 2 ^ j ∣ hi) (h1 : lo ≤ n) (h2 : n ≤ hi) :
    lo ≤ roundFloat n ∧ roundFloat n ≤ hi := by
  obtain ⟨i, hi1, hq⟩ := floatQuantumAux_pow n n j hn
  have hdvd : 2 ^ i ∣ 2 ^ j := Nat.pow_dvd_pow 2 hi1
  exact roundFloat_between n (2 ^ i) lo hi hq (Nat.pos_pow_of_pos i (by norm_num))
    (Nat.dvd_trans hdvd hlo) (Nat.dvd_trans hdvd hhi) h1 h2

theorem le_two_mul_roundFloat (n : Nat) : n ≤ 2 * roundFloat n := by
  by_cases h : n < 2 ^ 24
  · rw [roundFloat_of_lt n h]
    omega
  · have hq := floatQuantumAux_le n n (le_refl n) (by omega)
    obtain ⟨i, -, hpow⟩ := floatQuantumAux_pow n n n (by
      have := Nat.lt_two_pow n
      calc n < 2 ^ n := this
        _ ≤ 2 ^ (24 + n) := Nat.pow_le_pow_right (by norm_num) (by omega))
    have hpos : 0 < floatQuantumAux n n := by
      rw [hpow]
      exact Nat.pos_pow_of_pos i (by norm_num)
    have hb := roundFloat_between n (floatQuantumAux n n) (n / floatQuantumAux n n
      * floatQuantumAux n n) ((n / floatQuantumAux n n + 1) * floatQuantumAux n n) rfl hpos
      (Nat.dvd_mul_left _ _) (Nat.dvd_mul_left _ _) (Nat.div_mul_le_self n _) (by
        have := Nat.div_add_mod n (floatQuantumAux n n)
        have := Nat.mod_lt n hpos
        have e : (n / floatQuantumAux n n + 1) * floatQuantumAux n n
            = floatQuantumAux n n * (n / floatQuantumAux n n) + floatQuantumAux n n := by ring
        omega)
    have := Nat.div_add_mod n (floatQuantumAux n n)
    have := Nat.mod_lt n hpos
    have e2 : n / floatQuantumAux n n * floatQuantumAux n n
        = floatQuantumAux n n * (n / floatQuantumAux n n) := Nat.mul_comm _ _
    omega

/-- The height computation on naturals: below `2^21` single precision
reproduces `floor(3 * w / 10) + 1`. -/
theorem roundFloat_height (w : Nat) (hw : w < 2 ^ 21) :
    roundFloat (roundFloat (w * 10066330) + 2 ^ 25) / 2 ^ 25 = 3 * w / 10 + 1 := by
  have hd1 : (2 : Nat) ^ 21 ∣ 3 * w / 10 * 2 ^ 25 :=
    Dvd.dvd.mul_left (Nat.pow_dvd_pow 2 (by norm_num)) _
  have hd2 : (2 : Nat) ^ 21 ∣ (16 * (3 * w / 10) + 15) * 2 ^ 21 := Nat.dvd_mul_left _ _
  have hp := roundFloat_bounds (w * 10066330) 21 (3 * w / 10 * 2 ^ 25)
    ((16 * (3 * w / 10) + 15) * 2 ^ 21) (by norm_num; omega) hd1 hd2 (by norm_num; omega)
    (by norm_num; omega)
  have hd3 : (2 : Nat) ^ 21 ∣ (3 * w / 10 + 1) * 2 ^ 25 :=
    Dvd.dvd.mul_left (Nat.pow_dvd_pow 2 (by norm_num)) _
  have hd4 : (2 : Nat) ^ 21 ∣ (16 * (3 * w / 10) + 31) * 2 ^ 21 := Nat.dvd_mul_left _ _
  have hs := roundFloat_bounds (roundFloat (w * 10066330) + 2 ^ 25) 21
    ((3 * w / 10 + 1) * 2 ^ 25) ((16 * (3 * w / 10) + 31) * 2 ^ 21)
    (by norm_num at hp ⊢; omega) hd3 hd4 (by norm_num at hp ⊢; omega)
    (by norm_num at hp ⊢; omega)
  norm_num at hs ⊢
  omega

theorem roundFloatInt_natCast (n : Nat) : roundFloatInt (n : Int) = (roundFloat n : Int) := by
  unfold roundFloatInt
  rw [if_pos (Int.ofNat_nonneg n), Int.toNat_ofNat]

theorem heightOfWidth_natCast (w : Nat) :
    heightOfWidth (w : Int)
      = ((roundFloat (roundFloat (roundFloat w * 10066330) + 2 ^ 25) / 2 ^ 25 : Nat) : Int) := by
  unfold heightOfWidth
  simp only []
  rw [roundFloatInt_natCast]
  have e1 : (roundFloat w : Int) * 10066330 = ((roundFloat w * 10066330 : Nat) : Int) := by
    push_cast
    rfl
  rw [e1, roundFloatInt_natCast]
  have e2 : (roundFloat (roundFloat w * 10066330) : Int) + 2 ^ 25
      = ((roundFloat (roundFloat w * 10066330) + 2 ^ 25 : Nat) : Int) := by
    push_cast
    rfl
  rw [e2, roundFloatInt_natCast]
  have e3 : ((2 : Int) ^ 25) = (((2 : Nat) ^ 25 : Nat) : Int) := by norm_num
  rw [e3, Int.tdiv_eq_ediv (Int.ofNat_nonneg _) (Int.ofNat_nonneg _)]
  norm_cast

/-- For widths below `2^21` the single-precision height is the exact
`floor(3 * width / 10) + 1`. -/
theorem heightOfWidth_eq (width : Int) (h0 : 0 ≤ width) (h1 : width < 2 ^ 21) :
    heightOfWidth width = 3 * width / 10 + 1 := by
  obtain ⟨w, rfl⟩ := Int.eq_ofNat_of_zero_le h0
  have hw : w < 2 ^ 21 := by exact_mod_cast h1
  rw [heightOfWidth_natCast, roundFloat_of_lt w (by omega), roundFloat_height w hw]
  push_cast
  rfl

theorem heightOfWidth_ge (width : Int) (h : 2 ^ 21 ≤ width) : 1024 ≤ heightOfWidth width := by
  obtain ⟨w, rfl⟩ := Int.eq_ofNat_of_zero_le (le_trans (by norm_num) h)
  have hw : 2 ^ 21 ≤ w := by exact_mod_cast h
  rw [heightOfWidth_natCast]
  have a1 := le_two_mul_roundFloat w
  have a2 := le_two_mul_roundFloat (roundFloat w * 10066330)
  have a3 := le_two_mul_roundFloat (roundFloat (roundFloat w * 10066330) + 2 ^ 25)
  have : 1024 ≤ roundFloat (roundFloat (roundFloat w * 10066330) + 2 ^ 25) / 2 ^ 25 := by
    norm_num at hw a2 a3 ⊢
    omega
  exact_mod_cast this

theorem heightOfWidth_pos (width : Int) (h0 : 0 ≤ width) : 1 ≤ heightOfWidth width := by
  by_cases h : width < 2 ^ 21
  · rw [heightOfWidth_eq width h0 h]
    omega
  · have := heightOfWidth_ge width (by omega)
    omega

/-! ## Checked arithmetic and the pixel store -/

theorem checkInt_eq_some (x : Int) (h1 : -2 ^ 31 ≤ x) (h2 : x < 2 ^ 31) :
    checkInt x = some x := by
  unfold checkInt
  rw [if_pos ⟨h1, h2⟩]

theorem checkInt_some {x y : Int} (h : checkInt x = some y) :
    y = x ∧ -2 ^ 31 ≤ x ∧ x < 2 ^ 31 := by
  unfold checkInt at h
  split at h
  · rename_i hr
    exact ⟨(Option.some.inj h).symm, hr.1, hr.2⟩
  · exact Option.noConfusion h

theorem getD_set_eq (px : List Nat) (k i v d : Nat) (hk : k < px.length) :
    (px.set k v).getD i d = if i = k then v else px.getD i d := by
  simp only [List.getD_eq_getElem?_getD, List.getElem?_set]
  by_cases h : i = k
  · subst h
    simp [hk]
  · rw [if_neg (fun e => h e.symm), if_neg h]

theorem storePixel_eq_some (px : List Nat) (index : Int) (h0 : 0 ≤ index)
    (h1 : index < (px.length : Int)) :
    storePixel px index = some (px.set index.toNat markPixel) := by
  unfold storePixel
  rw [if_pos ⟨h0, h1⟩]

/-! ## The painting loops -/

theorem paintSpan_spec (W y : Int) (n : Nat) (x : Int) (px : List Nat)
    (hrow : -2 ^ 31 ≤ y * W ∧ y * W < 2 ^ 31)
    (h0 : 0 ≤ y * W + x) (h1 : y * W + x + (n : Int) ≤ (px.length : Int))
    (hlen : (px.length : Int) < 2 ^ 31) (hx : -2 ^ 31 ≤ x ∧ x + (n : Int) < 2 ^ 31) :
    ∃ px', paintSpan W y n x px = some px' ∧ px'.length = px.length
      ∧ ∀ i : Nat, px'.getD i 0
          = if y * W + x ≤ (i : Int) ∧ (i : Int) < y * W + x + (n : Int) then markPixel
            else px.getD i 0 := by
  induction n generalizing x px with
  | zero =>
    refine ⟨px, rfl, rfl, fun i => ?_⟩
    rw [if_neg]
    push_cast
    omega
  | succ n ih =>
    push_cast at h1 hx
    have hidx : (y * W + x).toNat < px.length := by omega
    obtain ⟨px', hp, hl, hg⟩ := ih (x + 1) (px.set (y * W + x).toNat markPixel)
      (by omega) (by rw [List.length_set]; omega) (by rw [List.length_set]; exact hlen)
      (by omega)
    refine ⟨px', ?_, by rw [hl, List.length_set], fun i => ?_⟩
    · rw [paintSpan, checkInt_eq_some _ hrow.1 hrow.2]
      simp only [Option.bind_eq_bind, Option.some_bind]
      rw [checkInt_eq_some _ (by omega) (by omega)]
      simp only [Option.some_bind]
      rw [storePixel_eq_some _ _ h0 (by omega)]
      simp only [Option.some_bind]
      rw [checkInt_eq_some _ (by omega) (by omega)]
      simp only [Option.some_bind]
      exact hp
    · rw [hg i, getD_set_eq _ _ _ _ _ hidx]
      push_cast
      by_cases hc2 : y * W + x ≤ (i : Int) ∧ (i : Int) < y * W + x + ((n : Int) + 1)
      · rw [if_pos hc2]
        by_cases hc1 : y * W + (x + 1) ≤ (i : Int) ∧ (i : Int) < y * W + (x + 1) + (n : Int)
        · rw [if_pos hc1]
        · rw [if_neg hc1, if_pos (by omega)]
      · rw [if_neg hc2, if_neg (by omega), if_neg (by omega)]

theorem row_step (W y y' : Int) (hW : 0 ≤ W) (h : y + 1 ≤ y') : y * W + W ≤ y' * W := by
  have := mul_le_mul_of_nonneg_right h hW
  linarith

theorem paintBar_spec (W H c b : Int) (n : Nat) (y0 : Int) (px : List Nat)
    (hW : 0 ≤ W) (hH : H < 2 ^ 31) (hc : 0 ≤ c) (hb : 0 ≤ b) (hcb : c + b ≤ W)
    (hlen : (px.length : Int) = W * H) (hfit : W * H < 2 ^ 31) (hy0 : 0 ≤ y0)
    (hyn : y0 + (n : Int) ≤ H) :
    ∃ px', paintBar W c b n y0 px = some px' ∧ (px'.length : Int) = W * H
      ∧ ∀ x y : Int, 0 ≤ x → x < W → 0 ≤ y → y < H →
          px'.getD (y * W + x).toNat 0
            = if y0 ≤ y ∧ y < y0 + (n : Int) ∧ c ≤ x ∧ x < c + b then markPixel
              else px.getD (y * W + x).toNat 0 := by
  induction n generalizing y0 px with
  | zero =>
    refine ⟨px, rfl, hlen, fun x y _ _ _ _ => ?_⟩
    rw [if_neg]
    push_cast
    omega
  | succ n ih =>
    push_cast at hyn
    have hy0W : 0 ≤ y0 * W := mul_nonneg hy0 hW
    have hrow : y0 * W + W ≤ H * W := row_step W y0 H hW (by omega)
    have hcomm : H * W = W * H := mul_comm H W
    have hbn : ((b.toNat : Nat) : Int) = b := Int.toNat_of_nonneg hb
    obtain ⟨px1, hp1, hl1, hg1⟩ := paintSpan_spec W y0 b.toNat c px (by omega) (by omega)
      (by omega) (by omega) (by omega)
    obtain ⟨px', hp, hl, hg⟩ := ih (y0 + 1) px1 (by rw [hl1]; exact hlen) (by omega) (by omega)
    refine ⟨px', ?_, hl, fun x y hx0 hxW hy hyH => ?_⟩
    · rw [paintBar, checkInt_eq_some _ (by omega) (by omega)]
      simp only [Option.bind_eq_bind, Option.some_bind]
      rw [show c + b - c = b by ring, hp1]
      simp only [Option.some_bind]
      rw [checkInt_eq_some _ (by omega) (by omega)]
      simp only [Option.some_bind]
      exact hp
    · rw [hg x y hx0 hxW hy hyH, hg1]
      have hyW : 0 ≤ y * W := mul_nonneg hy hW
      have hcast : (((y * W + x).toNat : Nat) : Int) = y * W + x :=
        Int.toNat_of_nonneg (by omega)
      rw [hcast, hbn]
      have hlt : y + 1 ≤ y0 → y * W + W ≤ y0 * W := row_step W y y0 hW
      have hgt : y0 + 1 ≤ y → y0 * W + W ≤ y * W := row_step W y0 y hW
      push_cast
      by_cases hc2 : y0 ≤ y ∧ y < y0 + ((n : Int) + 1) ∧ c ≤ x ∧ x < c + b
      · rw [if_pos hc2]
        by_cases hc1 : y0 + 1 ≤ y ∧ y < y0 + 1 + (n : Int) ∧ c ≤ x ∧ x < c + b
        · rw [if_pos hc1]
        · have hy : y = y0 := by omega
          subst hy
          rw [if_neg hc1, if_pos (by omega)]
      · rw [if_neg hc2, if_neg (by omega)]
        rw [if_neg]
        intro hidx
        by_cases hy1 : y + 1 ≤ y0
        · have := hlt hy1
          omega
        · by_cases hy2 : y0 + 1 ≤ y
          · have := hgt hy2
            omega
          · have hy : y = y0 := by omega
            subst hy
            omega

theorem paintPair_spec_succ (bw W H code : Int) (bar : Nat) (c : Int) (px : List Nat)
    (P : Int → Prop) (hcode : 0 ≤ code ∧ code ≤ 106) (hbar : bar + 1 < 8)
    (hbw : 0 ≤ bw) (hW : 0 ≤ W) (hW2 : W < 2 ^ 31) (hH0 : 0 ≤ H) (hH : H < 2 ^ 31)
    (hfit : W * H < 2 ^ 31) (hc : 0 ≤ c)
    (hcw : c + slot code bar * bw + slot code (bar + 1) * bw ≤ W)
    (hcan : Canvas W H px P) :
    ∃ px', paintPair bw W H code (bar : Int) (c, px)
        = some (c + slot code bar * bw + slot code (bar + 1) * bw, px')
      ∧ Canvas W H px' (fun x => P x ∨ (c ≤ x ∧ x < c + slot code bar * bw)) := by
  have hs0 : 0 ≤ slot code bar * bw :=
    mul_nonneg (slot_nonneg code bar hcode.1 hcode.2 (by omega)) hbw
  have hs1 : 0 ≤ slot code (bar + 1) * bw :=
    mul_nonneg (slot_nonneg code (bar + 1) hcode.1 hcode.2 hbar) hbw
  have hHn : ((H.toNat : Nat) : Int) = H := Int.toNat_of_nonneg hH0
  obtain ⟨px', hp, hl, hg⟩ := paintBar_spec W H c (slot code bar * bw) H.toNat 0 px hW hH hc
    hs0 (by omega) hcan.1 hfit (le_refl 0) (by omega)
  refine ⟨px', ?_, hl, fun x y hx0 hxW hy0 hyH => ?_⟩
  · have e1 : ((bar : Int) + 1) = ((bar + 1 : Nat) : Int) := by push_cast; rfl
    rw [paintPair, GetCPatterns_eq code bar hcode.1 hcode.2 (by omega)]
    simp only [Option.bind_eq_bind, Option.some_bind]
    rw [checkInt_eq_some _ (by omega) (by omega)]
    simp only [Option.some_bind]
    rw [e1, GetCPatterns_eq code (bar + 1) hcode.1 hcode.2 hbar]
    simp only [Option.some_bind]
    rw [checkInt_eq_some _ (by omega) (by omega)]
    simp only [Option.some_bind]
    rw [hp]
    simp only [Option.some_bind]
    rw [checkInt_eq_some _ (by omega) (by omega)]
    simp only [Option.some_bind]
    rw [checkInt_eq_some _ (by omega) (by omega)]
    simp only [Option.some_bind]
    rw [add_assoc]
  · have h := hg x y hx0 hxW hy0 hyH
    have hold := hcan.2 x y hx0 hxW hy0 hyH
    rw [hHn] at h
    by_cases hin : c ≤ x ∧ x < c + slot code bar * bw
    · rw [if_pos ⟨hy0, by omega, hin.1, hin.2⟩] at h
      exact ⟨fun _ => h, fun hn => absurd (Or.inr hin) hn⟩
    · rw [if_neg (fun e => hin ⟨e.2.2.1, e.2.2.2⟩)] at h
      rw [h]
      refine ⟨fun hp => ?_, fun hn => hold.2 (fun e => hn (Or.inl e))⟩
      rcases hp with hp | hp
      · exact hold.1 hp
      · exact absurd hp hin

theorem paintPair_spec (bw W H code : Int) (bar bar1 : Nat) (c : Int) (px : List Nat)
    (P : Int → Prop) (hcode : 0 ≤ code ∧ code ≤ 106) (hb : bar1 = bar + 1) (hbar : bar1 < 8)
    (hbw : 0 ≤ bw) (hW : 0 ≤ W) (hW2 : W < 2 ^ 31) (hH0 : 0 ≤ H) (hH : H < 2 ^ 31)
    (hfit : W * H < 2 ^ 31) (hc : 0 ≤ c)
    (hcw : c + slot code bar * bw + slot code bar1 * bw ≤ W)
    (hcan : Canvas W H px P) :
    ∃ px', paintPair bw W H code (bar : Int) (c, px)
        = some (c + slot code bar * bw + slot code bar1 * bw, px')
      ∧ Canvas W H px' (fun x => P x ∨ (c ≤ x ∧ x < c + slot code bar * bw)) := by
  subst hb
  exact paintPair_spec_succ bw W H code bar c px P hcode hbar hbw hW hW2 hH0 hH hfit hc hcw hcan

theorem Canvas.congr {W H : Int} {px : List Nat} {P Q : Int → Prop}
    (h : Canvas W H px P) (hpq : ∀ x, P x ↔ Q x) : Canvas W H px Q :=
  ⟨h.1, fun x y hx0 hxW hy0 hyH =>
    ⟨fun hq => (h.2 x y hx0 hxW hy0 hyH).1 ((hpq x).mpr hq),
      fun hq => (h.2 x y hx0 hxW hy0 hyH).2 (fun hp => hq ((hpq x).mp hp))⟩⟩

theorem slotsBefore_values (code : Int) :
    slotsBefore code 0 = 0 ∧ slotsBefore code 2 = slot code 0 + slot code 1
      ∧ slotsBefore code 4 = slot code 0 + slot code 1 + slot code 2 + slot code 3
      ∧ slotsBefore code 6 = slot code 0 + slot code 1 + slot code 2 + slot code 3
          + slot code 4 + slot code 5 := by
  simp [slotsBefore, List.range_succ, add_assoc]

theorem markedByCode_iff (code bw c x : Int) :
    markedByCode code bw c x ↔
      (c ≤ x ∧ x < c + slot code 0 * bw)
        ∨ (c + slot code 0 * bw + slot code 1 * bw ≤ x
            ∧ x < c + slot code 0 * bw + slot code 1 * bw + slot code 2 * bw)
        ∨ (c + slot code 0 * bw + slot code 1 * bw + slot code 2 * bw + slot code 3 * bw ≤ x
            ∧ x < c + slot code 0 * bw + slot code 1 * bw + slot code 2 * bw
                + slot code 3 * bw + slot code 4 * bw)
        ∨ (c + slot code 0 * bw + slot code 1 * bw + slot code 2 * bw + slot code 3 * bw
              + slot code 4 * bw + slot code 5 * bw ≤ x
            ∧ x < c + slot code 0 * bw + slot code 1 * bw + slot code 2 * bw
                + slot code 3 * bw + slot code 4 * bw + slot code 5 * bw
                + slot code 6 * bw) := by
  obtain ⟨p0, p2, p4, p6⟩ := slotsBefore_values code
  have e0 : bw * slotsBefore code (2 * 0) = 0 := by rw [Nat.mul_zero, p0, mul_zero]
  have e2 : bw * slotsBefore code (2 * 1) = slot code 0 * bw + slot code 1 * bw := by
    rw [Nat.mul_one, p2]; ring
  have e4 : bw * slotsBefore code (2 * 2)
      = slot code 0 * bw + slot code 1 * bw + slot code 2 * bw + slot code 3 * bw := by
    rw [show 2 * 2 = 4 from rfl, p4]; ring
  have e6 : bw * slotsBefore code (2 * 3)
      = slot code 0 * bw + slot code 1 * bw + slot code 2 * bw + slot code 3 * bw
        + slot code 4 * bw + slot code 5 * bw := by
    rw [show 2 * 3 = 6 from rfl, p6]; ring
  have f0 : bw * slot code (2 * 0) = slot code 0 * bw := by rw [Nat.mul_zero, mul_comm]
  have f2 : bw * slot code (2 * 1) = slot code 2 * bw := by rw [Nat.mul_one, mul_comm]
  have f4 : bw * slot code (2 * 2) = slot code 4 * bw := by
    rw [show 2 * 2 = 4 from rfl, mul_comm]
  have f6 : bw * slot code (2 * 3) = slot code 6 * bw := by
    rw [show 2 * 3 = 6 from rfl, mul_comm]
  constructor
  · rintro ⟨j, hj, h1, h2⟩
    have hj4 : j = 0 ∨ j = 1 ∨ j = 2 ∨ j = 3 := by omega
    rcases hj4 with rfl | rfl | rfl | rfl
    · rw [e0] at h1 h2
      rw [f0] at h2
      exact Or.inl ⟨by omega, by omega⟩
    · rw [e2] at h1 h2
      rw [f2] at h2
      exact Or.inr (Or.inl ⟨by omega, by omega⟩)
    · rw [e4] at h1 h2
      rw [f4] at h2
      exact Or.inr (Or.inr (Or.inl ⟨by omega, by omega⟩))
    · rw [e6] at h1 h2
      rw [f6] at h2
      exact Or.inr (Or.inr (Or.inr ⟨by omega, by omega⟩))
  · rintro (h | h | h | h)
    · exact ⟨0, by omega, by rw [e0]; omega, by rw [e0, f0]; omega⟩
    · exact ⟨1, by omega, by rw [e2]; omega, by rw [e2, f2]; omega⟩
    · exact ⟨2, by omega, by rw [e4]; omega, by rw [e4, f4]; omega⟩
    · exact ⟨3, by omega, by rw [e6]; omega, by rw [e6, f6]; omega⟩

theorem codeModules_mul (code bw : Int) :
    bw * codeModules code
      = slot code 0 * bw + slot code 1 * bw + slot code 2 * bw + slot code 3 * bw
        + slot code 4 * bw + slot code 5 * bw + slot code 6 * bw + slot code 7 * bw := by
  unfold codeModules
  ring

theorem paintCode_spec (bw W H code c : Int) (px : List Nat) (P : Int → Prop)
    (hcode : 0 ≤ code ∧ code ≤ 106) (hbw : 0 ≤ bw) (hW : 0 ≤ W) (hW2 : W < 2 ^ 31)
    (hH0 : 0 ≤ H) (hH : H < 2 ^ 31) (hfit : W * H < 2 ^ 31) (hc : 0 ≤ c)
    (hcw : c + bw * codeModules code ≤ W) (hcan : Canvas W H px P) :
    ∃ px', paintCode bw W H (c, px) code = some (c + bw * codeModules code, px')
      ∧ Canvas W H px' (fun x => P x ∨ markedByCode code bw c x) := by
  have hn : ∀ t, t < 8 → 0 ≤ slot code t * bw := fun t ht =>
    mul_nonneg (slot_nonneg code t hcode.1 hcode.2 ht) hbw
  have n0 := hn 0 (by omega)
  have n1 := hn 1 (by omega)
  have n2 := hn 2 (by omega)
  have n3 := hn 3 (by omega)
  have n4 := hn 4 (by omega)
  have n5 := hn 5 (by omega)
  have n6 := hn 6 (by omega)
  have n7 := hn 7 (by omega)
  have hsum := codeModules_mul code bw
  obtain ⟨px1, hp1, hc1⟩ := paintPair_spec bw W H code 0 1 c px P hcode rfl (by omega) hbw hW
    hW2 hH0 hH hfit hc (by omega) hcan
  obtain ⟨px2, hp2, hc2⟩ := paintPair_spec bw W H code 2 3
    (c + slot code 0 * bw + slot code 1 * bw) px1 _ hcode rfl (by omega) hbw hW hW2
    hH0 hH hfit (by omega) (by omega) hc1
  obtain ⟨px3, hp3, hc3⟩ := paintPair_spec bw W H code 4 5
    (c + slot code 0 * bw + slot code 1 * bw + slot code 2 * bw + slot code 3 * bw) px2 _
    hcode rfl (by omega) hbw hW hW2 hH0 hH hfit (by omega) (by omega) hc2
  obtain ⟨px4, hp4, hc4⟩ := paintPair_spec bw W H code 6 7
    (c + slot code 0 * bw + slot code 1 * bw + slot code 2 * bw + slot code 3 * bw
      + slot code 4 * bw + slot code 5 * bw) px3 _
    hcode rfl (by omega) hbw hW hW2 hH0 hH hfit (by omega) (by omega) hc3
  simp only [Nat.cast_ofNat, Nat.cast_zero] at hp1 hp2 hp3 hp4
  have hfin : c + bw * codeModules code
      = c + slot code 0 * bw + slot code 1 * bw + slot code 2 * bw + slot code 3 * bw
        + slot code 4 * bw + slot code 5 * bw + slot code 6 * bw + slot code 7 * bw := by
    rw [hsum]
    ring
  refine ⟨px4, ?_, hc4.congr (fun x => ?_)⟩
  · rw [paintCode, hfin]
    simp only [List.foldlM_cons, List.foldlM_nil, hp1, hp2, hp3, hp4, Option.bind_eq_bind,
      Option.some_bind]
    rfl
  · rw [markedByCode_iff]
    simp only [or_assoc]

theorem codeModules_valid (code : Int) (h0 : 0 ≤ code) (h1 : code ≤ 106) :
    codeModules code = if code ≤ 105 then 11 else 13 := by
  by_cases h : code ≤ 105
  · rw [if_pos h]
    exact (slot_regular code h0 h).2.2.2
  · rw [if_neg h, show code = 106 by omega]
    exact slot_stop.2.2

theorem totalModules_cons (code : Int) (rest : List Int) :
    totalModules (code :: rest) = codeModules code + totalModules rest := by
  simp [totalModules]

theorem totalModules_nonneg (codes : List Int) (h : ∀ v ∈ codes, 0 ≤ v ∧ v ≤ 106) :
    0 ≤ totalModules codes := by
  induction codes with
  | nil => simp [totalModules]
  | cons code rest ih =>
    have h1 := h code (List.mem_cons_self _ _)
    have h2 := ih (fun v hv => h v (List.mem_cons_of_mem _ hv))
    have h3 := codeModules_valid code h1.1 h1.2
    rw [totalModules_cons]
    split at h3 <;> omega

theorem paintCodes_cons (bw W H code : Int) (rest : List Int) (st : Int × List Nat) :
    paintCodes bw W H (code :: rest) st
      = (paintCode bw W H st code).bind (paintCodes bw W H rest) := by
  simp [paintCodes, List.foldlM_cons]

theorem paintCodes_spec (bw W H : Int) (codes : List Int) (c : Int) (px : List Nat)
    (P : Int → Prop) (hcodes : ∀ v ∈ codes, 0 ≤ v ∧ v ≤ 106) (hbw : 0 ≤ bw) (hW : 0 ≤ W)
    (hW2 : W < 2 ^ 31) (hH0 : 0 ≤ H) (hH : H < 2 ^ 31) (hfit : W * H < 2 ^ 31) (hc : 0 ≤ c)
    (hcw : c + bw * totalModules codes ≤ W) (hcan : Canvas W H px P) :
    ∃ px', paintCodes bw W H codes (c, px) = some (c + bw * totalModules codes, px')
      ∧ Canvas W H px' (fun x => P x ∨ markedBy codes bw c x) := by
  induction codes generalizing c px P with
  | nil =>
    refine ⟨px, ?_, hcan.congr (fun x => ?_)⟩
    · simp [paintCodes, totalModules]
    · simp [markedBy]
  | cons code rest ih =>
    have hv := hcodes code (List.mem_cons_self _ _)
    have hrest : ∀ v ∈ rest, 0 ≤ v ∧ v ≤ 106 := fun v hv => hcodes v (List.mem_cons_of_mem _ hv)
    have hm : 0 ≤ bw * codeModules code := by
      have := codeModules_valid code hv.1 hv.2
      apply mul_nonneg hbw
      split at this <;> omega
    have hr : 0 ≤ bw * totalModules rest := mul_nonneg hbw (totalModules_nonneg rest hrest)
    have hsum : bw * totalModules (code :: rest)
        = bw * codeModules code + bw * totalModules rest := by
      rw [totalModules_cons]
      ring
    rw [hsum] at hcw ⊢
    obtain ⟨px1, hp1, hc1⟩ := paintCode_spec bw W H code c px P hv hbw hW hW2 hH0 hH hfit hc
      (by omega) hcan
    obtain ⟨px', hp, hc'⟩ := ih (c + bw * codeModules code) px1 _ hrest (by omega) (by omega)
      hc1
    refine ⟨px', ?_, hc'.congr (fun x => ?_)⟩
    · rw [paintCodes_cons, hp1, Option.some_bind, hp, add_assoc]
    · simp only [markedBy, or_assoc]

/-! ## What a successful run implies -/

theorem paintPair_some (bw W H code : Int) (bar bar1 : Nat) (st st' : Int × List Nat)
    (hb : bar1 = bar + 1) (hbar : bar1 < 8)
    (h : paintPair bw W H code (bar : Int) st = some st') :
    (0 ≤ code ∧ code ≤ 106)
      ∧ st'.1 = st.1 + slot code bar * bw + slot code bar1 * bw
      ∧ st'.1 < 2 ^ 31 := by
  subst hb
  unfold paintPair at h
  cases hg : GetCPatterns code (bar : Int) with
  | none => rw [hg] at h; simp at h
  | some w =>
    have hvalid := GetCPatterns_isSome code _ w hg
    have e1 : ((bar : Int) + 1) = ((bar + 1 : Nat) : Int) := by push_cast; rfl
    rw [GetCPatterns_eq code bar hvalid.1 hvalid.2 (by omega), e1,
      GetCPatterns_eq code (bar + 1) hvalid.1 hvalid.2 hbar] at h
    simp only [Option.bind_eq_bind, Option.some_bind, Option.bind_eq_some] at h
    obtain ⟨bwid, h1, swid, h2, pxs, -, adv, h4, cur, h5, h6⟩ := h
    have a1 := checkInt_some h1
    have a2 := checkInt_some h2
    have a4 := checkInt_some h4
    have a5 := checkInt_some h5
    have e := Option.some.inj h6
    rw [← e]
    simp only []
    refine ⟨hvalid, ?_, ?_⟩
    · rw [a5.1, a4.1, a1.1, a2.1, add_assoc]
    · rw [a5.1]
      exact a5.2.2

theorem paintCode_some (bw W H code : Int) (st st' : Int × List Nat)
    (h : paintCode bw W H st code = some st') :
    (0 ≤ code ∧ code ≤ 106) ∧ st'.1 = st.1 + bw * codeModules code ∧ st'.1 < 2 ^ 31 := by
  unfold paintCode at h
  simp only [List.foldlM_cons, List.foldlM_nil, Option.bind_eq_bind, Option.bind_eq_some] at h
  obtain ⟨s1, h1, s2, h2, s3, h3, s4, h4, h5⟩ := h
  have e := Option.some.inj h5
  have a1 := paintPair_some bw W H code 0 1 st s1 rfl (by omega) (by simpa using h1)
  have a2 := paintPair_some bw W H code 2 3 s1 s2 rfl (by omega) (by simpa using h2)
  have a3 := paintPair_some bw W H code 4 5 s2 s3 rfl (by omega) (by simpa using h3)
  have a4 := paintPair_some bw W H code 6 7 s3 s4 rfl (by omega) (by simpa using h4)
  rw [← e]
  refine ⟨a1.1, ?_, a4.2.2⟩
  rw [a4.2.1, a3.2.1, a2.2.1, a1.2.1, codeModules_mul]
  ring

theorem paintCodes_some (bw W H : Int) (codes : List Int) (st st' : Int × List Nat)
    (h : paintCodes bw W H codes st = some st') :
    (∀ v ∈ codes, 0 ≤ v ∧ v ≤ 106) ∧ st'.1 = st.1 + bw * totalModules codes
      ∧ (codes ≠ [] → st'.1 < 2 ^ 31) := by
  induction codes generalizing st with
  | nil =>
    simp only [paintCodes, List.foldlM_nil] at h
    have e := Option.some.inj h
    rw [← e]
    simp [totalModules]
  | cons code rest ih =>
    rw [paintCodes_cons] at h
    simp only [Option.bind_eq_some] at h
    obtain ⟨s1, h1, h2⟩ := h
    have a1 := paintCode_some bw W H code st s1 h1
    have a2 := ih s1 h2
    refine ⟨?_, ?_, fun _ => ?_⟩
    · intro v hv
      rcases List.mem_cons.mp hv with rfl | hv
      · exact a1.1
      · exact a2.1 v hv
    · rw [a2.2.1, a1.2.1, totalModules_cons]
      ring
    · by_cases hr : rest = []
      · subst hr
        simp only [paintCodes, List.foldlM_nil] at h2
        have e := Option.some.inj h2
        rw [← e]
        exact a1.2.2
      · exact a2.2.2 hr

/-! ## The module count of a code sequence -/

theorem totalModules_append (xs ys : List Int) :
    totalModules (xs ++ ys) = totalModules xs + totalModules ys := by
  simp [totalModules]

theorem totalModules_regular (xs : List Int) (h : ∀ v ∈ xs, 0 ≤ v ∧ v ≤ 105) :
    totalModules xs = 11 * (xs.length : Int) := by
  induction xs with
  | nil => simp [totalModules]
  | cons v rest ih =>
    have hv := h v (List.mem_cons_self _ _)
    rw [totalModules_cons, ih (fun w hw => h w (List.mem_cons_of_mem _ hw)),
      (slot_regular v hv.1 hv.2).2.2.2, List.length_cons]
    push_cast
    ring

/-- For ASCII input every code but the final stop code is at most 105. -/
theorem StringToCode128_init (asciiData : List Int) (h : IsAscii asciiData) :
    ∃ init : List Int, StringToCode128 asciiData = init ++ [106]
      ∧ (∀ v ∈ init, v ≤ 105) := by
  refine ⟨StartCodeForCodeSet (startSetOf asciiData)
    :: encodeLoop asciiData (startSetOf asciiData) []
    ++ [Int.tmod (toInt (StartCodeForCodeSet (startSetOf asciiData)
          + weightedSum (encodeLoop asciiData (startSetOf asciiData) []) 1)) 103], ?_, ?_⟩
  · rw [StringToCode128_shape]
    simp
  · intro v hv
    simp only [List.cons_append, List.mem_cons, List.mem_append, List.not_mem_nil,
      or_false] at hv
    rcases hv with hv | hv | hv
    · rcases StartCodeForCodeSet_cases (startSetOf asciiData) with e | e <;> omega
    · have := (encodeLoop_body asciiData _ h v hv).range
      omega
    · have := Int.tmod_lt_of_pos (toInt (StartCodeForCodeSet (startSetOf asciiData)
        + weightedSum (encodeLoop asciiData (startSetOf asciiData) []) 1))
        (show (0 : Int) < 103 by norm_num)
      omega

theorem StringToCode128_length_ge (asciiData : List Int) :
    3 ≤ (StringToCode128 asciiData).length := by
  rw [StringToCode128_shape, shape_length]
  omega

theorem StringToCode128_ne_nil (asciiData : List Int) : StringToCode128 asciiData ≠ [] := by
  intro h
  have := StringToCode128_length_ge asciiData
  rw [h] at this
  simp at this

/-- When every code is an index of the table, the sequence of an ASCII string
has `(L - 3) * 11 + 35` modules, and every code but the last has 11. -/
theorem totalModules_StringToCode128 (asciiData : List Int) (h : IsAscii asciiData)
    (hv : ∀ v ∈ StringToCode128 asciiData, 0 ≤ v ∧ v ≤ 106) :
    totalModules (StringToCode128 asciiData) = exactModules asciiData
      ∧ ∀ k : Nat, k + 1 < (StringToCode128 asciiData).length →
          codeModules ((StringToCode128 asciiData).getD k 0) = 11 := by
  obtain ⟨init, hi, hle⟩ := StringToCode128_init asciiData h
  have hreg : ∀ v ∈ init, 0 ≤ v ∧ v ≤ 105 := fun v hm =>
    ⟨(hv v (by rw [hi]; exact List.mem_append_left _ hm)).1, hle v hm⟩
  constructor
  · unfold exactModules
    rw [hi, totalModules_append, totalModules_regular init hreg]
    have : totalModules [106] = 13 := by
      rw [totalModules]
      simp only [List.map_cons, List.map_nil, List.sum_cons, List.sum_nil, add_zero]
      exact slot_stop.2.2
    rw [this, List.length_append, List.length_singleton]
    push_cast
    ring
  · intro k hk
    rw [hi, List.length_append, List.length_singleton] at hk
    have hk2 : k < init.length := by omega
    rw [hi, List.getD_append _ _ _ _ hk2, List.getD_eq_getElem _ _ hk2]
    have := hreg _ (List.getElem_mem hk2)
    exact (slot_regular _ this.1 this.2).2.2.2

theorem moduleCount_eq (size : Nat) (h3 : 3 ≤ size)
    (h : ((size : Int) - 3) * 11 + 35 < 2 ^ 31) :
    moduleCount size = ((size : Int) - 3) * 11 + 35 := by
  unfold moduleCount toInt toSizeT
  omega

/-! ## The renderer on renderable input -/

theorem Canvas_replicate (W H : Int) (hW : 0 ≤ W) (hH : 0 ≤ H) :
    Canvas W H (List.replicate (W * H).toNat backgroundPixel) (fun _ => False) := by
  have hlen : (((W * H).toNat : Nat) : Int) = W * H := Int.toNat_of_nonneg (mul_nonneg hW hH)
  refine ⟨by rw [List.length_replicate, hlen], fun x y hx0 hxW hy0 hyH => ⟨fun hf => hf.elim,
    fun _ => ?_⟩⟩
  have hrow : y * W + W ≤ H * W := row_step W y H hW (by omega)
  have hyW : 0 ≤ y * W := mul_nonneg hy0 hW
  have hcomm : H * W = W * H := mul_comm H W
  have hidx : (y * W + x).toNat < (List.replicate (W * H).toNat backgroundPixel).length := by
    rw [List.length_replicate]
    omega
  rw [List.getD_eq_getElem _ _ hidx, List.getElem_replicate]

theorem exactModules_ge (asciiData : List Int) : 35 ≤ exactModules asciiData := by
  have := StringToCode128_length_ge asciiData
  unfold exactModules
  omega

theorem quietMargin_bounds (bw : Int) (q : Bool) (hbw : 1 ≤ bw) :
    0 ≤ quietMargin bw q ∧ quietMargin bw q ≤ 10 * bw := by
  unfold quietMargin
  cases q <;> simp <;> omega

/-- The arithmetic consequences of a pixel count that fits an `int`. -/
theorem fits_bounds (W0 W H : Int) (hW0 : 35 ≤ W0) (hW : W0 ≤ W) (hH : H = 3 * W0 / 10 + 1)
    (hfit : W * H < 2 ^ 31) :
    W < 2 ^ 31 ∧ H < 2 ^ 31 ∧ W0 < 2 ^ 21 ∧ 1 ≤ H := by
  have h1 : 1 ≤ H := by omega
  have h2 : 0 ≤ W * (H - 1) := mul_nonneg (by omega) (by omega)
  have h3 : 0 ≤ (W - 1) * H := mul_nonneg (by omega) (by omega)
  have e2 : W * (H - 1) = W * H - W := by ring
  have e3 : (W - 1) * H = W * H - H := by ring
  refine ⟨by omega, by omega, ?_, h1⟩
  by_contra hc
  have h4 : (2 : Int) ^ 21 * 629146 ≤ W * H :=
    mul_le_mul (by omega) (by omega) (by norm_num) (by omega)
  norm_num at h4 hfit
  omega

theorem MakeBarcodeImage_run_spec (asciiData : List Int) (bw : Int) (q : Bool)
    (hs : IsAscii asciiData) (hbw : 1 ≤ bw) (hr : Renderable asciiData bw q) :
    ∃ px, MakeBarcodeImage.run asciiData bw q
        = some (exactWidth asciiData bw q - quietMargin bw q,
            { pixels := px, width := exactWidth asciiData bw q,
              height := exactHeight asciiData bw })
      ∧ Canvas (exactWidth asciiData bw q) (exactHeight asciiData bw) px
          (markedBy (StringToCode128 asciiData) bw (quietMargin bw q)) := by
  obtain ⟨hvalid, hfit⟩ := hr
  have hE := exactModules_ge asciiData
  have hm := quietMargin_bounds bw q hbw
  have hEbw : 0 ≤ exactModules asciiData * (bw - 1) := mul_nonneg (by omega) (by omega)
  have eEbw : exactModules asciiData * (bw - 1)
      = exactModules asciiData * bw - exactModules asciiData := by ring
  have hW0 : 35 ≤ baseWidth asciiData bw := by
    unfold baseWidth
    omega
  have hWW : baseWidth asciiData bw ≤ exactWidth asciiData bw q := by
    unfold exactWidth
    omega
  obtain ⟨hW2, hH2, hsmall, hH1⟩ := fits_bounds (baseWidth asciiData bw)
    (exactWidth asciiData bw q) (exactHeight asciiData bw) hW0 hWW rfl hfit
  have hmod : moduleCount (StringToCode128 asciiData).length = exactModules asciiData :=
    moduleCount_eq _ (StringToCode128_length_ge asciiData) (by
      have : exactModules asciiData < 2 ^ 31 := by
        unfold baseWidth at hW0 hWW hsmall
        omega
      exact this)
  have hheight : heightOfWidth (baseWidth asciiData bw) = exactHeight asciiData bw :=
    heightOfWidth_eq _ (by omega) hsmall
  have hquiet : addQuietMargin (baseWidth asciiData bw) bw q
      = some (exactWidth asciiData bw q) := by
    unfold addQuietMargin exactWidth quietMargin at *
    cases q with
    | false => simp
    | true =>
      simp only [if_true] at *
      rw [show 2 * CQuietWidth * bw = 20 * bw by unfold CQuietWidth; ring,
        checkInt_eq_some _ (by omega) (by omega)]
      simp only [Option.bind_eq_bind, Option.some_bind]
      rw [checkInt_eq_some _ (by omega) (by omega)]
      congr 1
      ring
  have hcursor : startCursor bw q = some (quietMargin bw q) := by
    unfold startCursor quietMargin at *
    cases q with
    | false => simp
    | true =>
      simp only [if_true] at *
      rw [show CQuietWidth * bw = 10 * bw by unfold CQuietWidth; ring,
        checkInt_eq_some _ (by omega) (by unfold exactWidth quietMargin at hW2; simp at hW2; omega)]
  have hW0' : 0 ≤ exactWidth asciiData bw q := by omega
  have hH0' : 0 ≤ exactHeight asciiData bw := by omega
  have hnew : Code128Bitmap.new (exactWidth asciiData bw q) (exactHeight asciiData bw)
      = some { pixels := List.replicate (exactWidth asciiData bw q
                  * exactHeight asciiData bw).toNat backgroundPixel,
               width := exactWidth asciiData bw q, height := exactHeight asciiData bw } := by
    have hp := mul_nonneg hW0' hH0'
    unfold Code128Bitmap.new
    rw [checkInt_eq_some _ (by omega) hfit]
    simp only [Option.bind_eq_bind, Option.some_bind]
    rw [if_neg (by omega)]
  have htot := (totalModules_StringToCode128 asciiData hs hvalid).1
  obtain ⟨px, hp, hcan⟩ := paintCodes_spec bw (exactWidth asciiData bw q)
    (exactHeight asciiData bw) (StringToCode128 asciiData) (quietMargin bw q) _
    (fun _ => False) hvalid (by omega) hW0' hW2 hH0' hH2 hfit hm.1 (by
      rw [htot]
      unfold exactWidth baseWidth
      rw [mul_comm bw]
      omega) (Canvas_replicate _ _ hW0' hH0')
  refine ⟨px, ?_, hcan.congr (fun x => by simp)⟩
  unfold MakeBarcodeImage.run
  simp only [Code128Content.new, Code128Content.GetCodes]
  rw [hmod, ← baseWidth, checkInt_eq_some _ (by omega) (by omega)]
  simp only [Option.bind_eq_bind, Option.some_bind]
  rw [hheight, hquiet]
  simp only [Option.some_bind]
  rw [hnew]
  simp only [Option.some_bind]
  rw [hcursor]
  simp only [Option.some_bind]
  rw [hp]
  simp only [Option.some_bind]
  congr 2
  rw [htot]
  unfold exactWidth baseWidth
  ring

theorem Renderable_of_run (asciiData : List Int) (bw : Int) (q : Bool)
    (r : Int × Code128Bitmap) (hs : IsAscii asciiData) (hbw : 1 ≤ bw)
    (h : MakeBarcodeImage.run asciiData bw q = some r) : Renderable asciiData bw q := by
  unfold MakeBarcodeImage.run at h
  simp only [Code128Content.new, Code128Content.GetCodes, Option.bind_eq_bind,
    Option.bind_eq_some] at h
  obtain ⟨w0, h1, w, h2, bitmap, h3, cursor, h4, st, h5, -⟩ := h
  have a1 := checkInt_some h1
  have a5 := paintCodes_some _ _ _ _ _ _ h5
  have hvalid := a5.1
  have htot := (totalModules_StringToCode128 asciiData hs hvalid).1
  have hlt := a5.2.2 (StringToCode128_ne_nil asciiData)
  have hcur := a5.2.1
  simp only [] at hcur
  rw [htot] at hcur
  have hE := exactModules_ge asciiData
  have hEbw : 0 ≤ exactModules asciiData * (bw - 1) := mul_nonneg (by omega) (by omega)
  have eEbw : exactModules asciiData * (bw - 1)
      = exactModules asciiData * bw - exactModules asciiData := by ring
  have ecomm : bw * exactModules asciiData = exactModules asciiData * bw := mul_comm _ _
  have hm := quietMargin_bounds bw q hbw
  have hcursor : cursor = quietMargin bw q := by
    unfold startCursor at h4
    unfold quietMargin
    cases q with
    | false =>
      simp only [Bool.false_eq_true, if_false] at h4 ⊢
      exact (Option.some.inj h4).symm
    | true =>
      simp only [if_true] at h4 ⊢
      have := (checkInt_some h4).1
      rw [this]
      unfold CQuietWidth
      rfl
  have hmod : moduleCount (StringToCode128 asciiData).length = exactModules asciiData :=
    moduleCount_eq _ (StringToCode128_length_ge asciiData) (by
      have : exactModules asciiData < 2 ^ 31 := by omega
      exact this)
  have hw0 : w0 = baseWidth asciiData bw := by
    rw [a1.1, hmod]
    rfl
  have hw : w = exactWidth asciiData bw q := by
    unfold addQuietMargin at h2
    unfold exactWidth quietMargin
    cases q with
    | false =>
      simp only [Bool.false_eq_true, if_false] at h2 ⊢
      rw [← Option.some.inj h2, hw0]
      ring
    | true =>
      simp only [if_true, Option.bind_eq_bind, Option.bind_eq_some] at h2 ⊢
      obtain ⟨margin, hm1, hm2⟩ := h2
      rw [(checkInt_some hm2).1, (checkInt_some hm1).1, hw0]
      unfold CQuietWidth
      ring
  have hnew : 0 ≤ w * heightOfWidth w0 ∧ w * heightOfWidth w0 < 2 ^ 31 := by
    unfold Code128Bitmap.new at h3
    simp only [Option.bind_eq_bind, Option.bind_eq_some] at h3
    obtain ⟨count, hc1, hc2⟩ := h3
    have := checkInt_some hc1
    split at hc2
    · exact Option.noConfusion hc2
    · omega
  rw [hw, hw0] at hnew
  have hW0 : 35 ≤ baseWidth asciiData bw := by
    unfold baseWidth
    omega
  have hWW : baseWidth asciiData bw ≤ exactWidth asciiData bw q := by
    unfold exactWidth
    omega
  have hsmall : baseWidth asciiData bw < 2 ^ 21 := by
    by_contra hc
    have hge := heightOfWidth_ge (baseWidth asciiData bw) (by omega)
    have h4 : (2 : Int) ^ 21 * 1024 ≤ exactWidth asciiData bw q
        * heightOfWidth (baseWidth asciiData bw) :=
      mul_le_mul (by omega) hge (by norm_num) (by omega)
    norm_num at h4
    omega
  rw [heightOfWidth_eq _ (by omega) hsmall] at hnew
  exact ⟨hvalid, hnew.2⟩

/-- Everything that is known about a returned bitmap. -/
theorem MakeBarcodeImage_some (asciiData : List Int) (bw : Int) (q : Bool)
    (bm : Code128Bitmap) (hs : IsAscii asciiData) (hbw : 1 ≤ bw)
    (h : MakeBarcodeImage asciiData bw q = some bm) :
    Renderable asciiData bw q ∧ bm.width = exactWidth asciiData bw q
      ∧ bm.height = exactHeight asciiData bw
      ∧ Canvas (exactWidth asciiData bw q) (exactHeight asciiData bw) bm.pixels
          (markedBy (StringToCode128 asciiData) bw (quietMargin bw q)) := by
  unfold MakeBarcodeImage at h
  obtain ⟨r, hr, rfl⟩ := Option.map_eq_some'.mp h
  have hrend := Renderable_of_run asciiData bw q r hs hbw hr
  obtain ⟨px, hrun, hcan⟩ := MakeBarcodeImage_run_spec asciiData bw q hs hbw hrend
  rw [hrun] at hr
  rw [← Option.some.inj hr]
  exact ⟨hrend, rfl, rfl, hcan⟩

theorem MakeBarcodeImage_isSome (asciiData : List Int) (bw : Int) (q : Bool)
    (hs : IsAscii asciiData) (hbw : 1 ≤ bw) (hr : Renderable asciiData bw q) :
    ∃ bm, MakeBarcodeImage asciiData bw q = some bm := by
  obtain ⟨px, hrun, -⟩ := MakeBarcodeImage_run_spec asciiData bw q hs hbw hr
  exact ⟨_, by rw [MakeBarcodeImage, hrun]; rfl⟩

/-- For ASCII input and `barWeight >= 1` a bitmap is returned exactly on the
renderable inputs. -/
theorem MakeBarcodeImage_isSome_iff (asciiData : List Int) (bw : Int) (q : Bool)
    (hs : IsAscii asciiData) (hbw : 1 ≤ bw) :
    (∃ bm, MakeBarcodeImage asciiData bw q = some bm) ↔ Renderable asciiData bw q :=
  ⟨fun ⟨bm, h⟩ => (MakeBarcodeImage_some asciiData bw q bm hs hbw h).1,
    MakeBarcodeImage_isSome asciiData bw q hs hbw⟩

/-! ## The marked columns -/

theorem markedByCode_shift (code bw c d x : Int) :
    markedByCode code bw (c + d) (x + d) ↔ markedByCode code bw c x := by
  unfold markedByCode
  constructor
  · rintro ⟨j, hj, h1, h2⟩
    exact ⟨j, hj, by omega, by omega⟩
  · rintro ⟨j, hj, h1, h2⟩
    exact ⟨j, hj, by omega, by omega⟩

theorem markedBy_shift (codes : List Int) (bw c d x : Int) :
    markedBy codes bw (c + d) (x + d) ↔ markedBy codes bw c x := by
  induction codes generalizing c with
  | nil => simp [markedBy]
  | cons code rest ih =>
    simp only [markedBy]
    rw [markedByCode_shift, show c + d + bw * codeModules code
      = c + bw * codeModules code + d by ring, ih]

theorem markedByCode_range (code bw c x : Int) (hcode : 0 ≤ code ∧ code ≤ 106) (hbw : 0 ≤ bw)
    (h : markedByCode code bw c x) : c ≤ x ∧ x < c + bw * codeModules code := by
  have hn : ∀ t, t < 8 → 0 ≤ slot code t * bw := fun t ht =>
    mul_nonneg (slot_nonneg code t hcode.1 hcode.2 ht) hbw
  have n0 := hn 0 (by omega)
  have n1 := hn 1 (by omega)
  have n2 := hn 2 (by omega)
  have n3 := hn 3 (by omega)
  have n4 := hn 4 (by omega)
  have n5 := hn 5 (by omega)
  have n6 := hn 6 (by omega)
  have n7 := hn 7 (by omega)
  rw [codeModules_mul]
  rcases (markedByCode_iff code bw c x).mp h with h | h | h | h <;> omega

theorem markedBy_range (codes : List Int) (bw c x : Int)
    (hcodes : ∀ v ∈ codes, 0 ≤ v ∧ v ≤ 106) (hbw : 0 ≤ bw) (h : markedBy codes bw c x) :
    c ≤ x ∧ x < c + bw * totalModules codes := by
  induction codes generalizing c with
  | nil => exact h.elim
  | cons code rest ih =>
    have hv := hcodes code (List.mem_cons_self _ _)
    have hrest : ∀ v ∈ rest, 0 ≤ v ∧ v ≤ 106 := fun v hv => hcodes v (List.mem_cons_of_mem _ hv)
    have hm : 0 ≤ bw * codeModules code := by
      have := codeModules_valid code hv.1 hv.2
      apply mul_nonneg hbw
      split at this <;> omega
    have hr : 0 ≤ bw * totalModules rest := mul_nonneg hbw (totalModules_nonneg rest hrest)
    have hsum : bw * totalModules (code :: rest)
        = bw * codeModules code + bw * totalModules rest := by
      rw [totalModules_cons]
      ring
    rw [hsum]
    rcases h with h | h
    · have := markedByCode_range code bw c x hv hbw h
      omega
    · have := ih (c + bw * codeModules code) hrest h
      omega

theorem InBarSpan_nil (bw m x : Int) : ¬ InBarSpan [] bw m x := by
  rintro ⟨k, j, hk, -⟩
  simp at hk

theorem InBarSpan_cons (code : Int) (rest : List Int) (bw m x : Int) :
    InBarSpan (code :: rest) bw m x
      ↔ markedByCode code bw m x ∨ InBarSpan rest bw (m + 11 * bw) x := by
  constructor
  · rintro ⟨k, j, hk, hj, h1, h2⟩
    cases k with
    | zero =>
      left
      simp only [List.getD_cons_zero, Nat.cast_zero, mul_zero, zero_mul, add_zero] at h1 h2
      exact ⟨j, hj, h1, h2⟩
    | succ k =>
      right
      simp only [List.getD_cons_succ, List.length_cons] at h1 h2 hk
      have e : m + 11 * ((k + 1 : Nat) : Int) * bw = m + 11 * bw + 11 * (k : Int) * bw := by
        push_cast
        ring
      rw [e] at h1 h2
      exact ⟨k, j, by omega, hj, h1, h2⟩
  · rintro (⟨j, hj, h1, h2⟩ | ⟨k, j, hk, hj, h1, h2⟩)
    · refine ⟨0, j, by simp, hj, ?_, ?_⟩
      · simp only [List.getD_cons_zero, Nat.cast_zero, mul_zero, zero_mul, add_zero]
        exact h1
      · simp only [List.getD_cons_zero, Nat.cast_zero, mul_zero, zero_mul, add_zero]
        exact h2
    · have e : m + 11 * ((k + 1 : Nat) : Int) * bw = m + 11 * bw + 11 * (k : Int) * bw := by
        push_cast
        ring
      refine ⟨k + 1, j, by simp only [List.length_cons]; omega, hj, ?_, ?_⟩
      · rw [List.getD_cons_succ, e]
        exact h1
      · rw [List.getD_cons_succ, e]
        exact h2

/-- When every symbol but the last has 11 modules, the columns marked by the
cursor walk are the bar spans of the specification. -/
theorem markedBy_iff_InBarSpan (codes : List Int) (bw m x : Int)
    (h : ∀ k : Nat, k + 1 < codes.length → codeModules (codes.getD k 0) = 11) :
    markedBy codes bw m x ↔ InBarSpan codes bw m x := by
  induction codes generalizing m with
  | nil => simp [markedBy, InBarSpan_nil]
  | cons code rest ih =>
    rw [InBarSpan_cons]
    simp only [markedBy]
    by_cases hr : rest = []
    · subst hr
      simp [markedBy, InBarSpan_nil]
    · have hlen : 0 + 1 < (code :: rest).length := by
        have := List.length_pos.mpr hr
        simp only [List.length_cons]
        omega
      have h11 := h 0 hlen
      simp only [List.getD_cons_zero] at h11
      rw [h11, mul_comm bw 11, ih (m + 11 * bw) (fun k hk => by
        have := h (k + 1) (by simp only [List.length_cons]; omega)
        simpa using this)]

/-! ## Distinct rows -/

theorem patternRows_ne (n k : Nat) (hn : n < 107) (hk : k < 107) (hne : n ≠ k) :
    ∃ t : Nat, t < 8 ∧ (CPatterns.getD n []).getD t 0 ≠ (CPatterns.getD k []).getD t 0 := by
  by_contra hall
  have hall2 : ∀ t : Nat, t < 8 →
      (CPatterns.getD n []).getD t 0 = (CPatterns.getD k []).getD t 0 := by
    intro t ht
    by_contra hc
    exact hall ⟨t, ht, hc⟩
  have hln := CPatterns_row_length n hn
  have hlk := CPatterns_row_length k hk
  have hrows : CPatterns.getD n [] = CPatterns.getD k [] := by
    apply List.ext_getElem (by rw [hln, hlk])
    intro t h1 h2
    have := hall2 t (by omega)
    rw [List.getD_eq_getElem _ _ h1, List.getD_eq_getElem _ _ h2] at this
    exact this
  have hn2 : n < CPatterns.length := by rw [CPatterns_length]; exact hn
  have hk2 : k < CPatterns.length := by rw [CPatterns_length]; exact hk
  rw [List.getD_eq_getElem _ _ hn2, List.getD_eq_getElem _ _ hk2] at hrows
  exact hne ((CPatterns_nodup.getElem_inj_iff).mp hrows)

theorem StringToCode128_replicate_z_length :
    (StringToCode128 (List.replicate 6908 122)).length = 6911 := by
  rw [StringToCode128_replicate_z, shape_length, List.length_replicate]

theorem markPixel_ne_backgroundPixel : markPixel ≠ backgroundPixel := by decide

theorem IsAscii_A : IsAscii [65] := by
  intro c hc
  rw [List.mem_singleton.mp hc]
  decide

theorem StringToCode128_A : StringToCode128 [65] = [104, 33, 34, 106] := by decide

theorem Renderable_A (q : Bool) : Renderable [65] 2 q := by
  refine ⟨by rw [StringToCode128_A]; decide, ?_⟩
  unfold exactWidth exactHeight baseWidth exactModules quietMargin
  rw [StringToCode128_A]
  cases q <;> decide

theorem bitmap_A_size (N : Code128Bitmap)
    (hN : MakeBarcodeImage [65] 2 false = some N) : N.width = 92 ∧ N.height = 28 := by
  have h := MakeBarcodeImage_some [65] 2 false N IsAscii_A (by decide) hN
  rw [h.2.1, h.2.2.1]
  unfold exactWidth exactHeight baseWidth exactModules quietMargin
  rw [StringToCode128_A]
  decide

/-! ## The claims about the renderer, the tables and the decoder -/

/-- C11 (image width): for an ASCII string and `barWeight >= 1`, every bitmap
`MakeBarcodeImage` returns has width `((L - 3) * 11 + 35) * barWeight`, plus
`2 * 10 * barWeight` with the quiet zone; and a bitmap is returned whenever
every code is a table index and the pixel count fits an `int`. -/
theorem MakeBarcodeImage_width (asciiData : List Int) (bw : Int) (q : Bool)
    (hs : IsAscii asciiData) (hbw : 1 ≤ bw) :
    (∀ bm, MakeBarcodeImage asciiData bw q = some bm →
        bm.width = ((((StringToCode128 asciiData).length : Int) - 3) * 11 + 35) * bw
          + (if q then 2 * 10 * bw else 0))
      ∧ (Renderable asciiData bw q → ∃ bm, MakeBarcodeImage asciiData bw q = some bm) := by
  refine ⟨fun bm h => ?_, MakeBarcodeImage_isSome asciiData bw q hs hbw⟩
  rw [(MakeBarcodeImage_some asciiData bw q bm hs hbw h).2.1]
  unfold exactWidth baseWidth exactModules quietMargin
  cases q <;> simp
  ring

theorem MakeBarcodeImage_width_witness :
    ∃ bm, MakeBarcodeImage [65] 2 false = some bm ∧ bm.width = 92 := by
  obtain ⟨bm, h⟩ := (MakeBarcodeImage_width [65] 2 false IsAscii_A (by decide)).2
    (Renderable_A false)
  have hw := (MakeBarcodeImage_width [65] 2 false IsAscii_A (by decide)).1 bm h
  rw [StringToCode128_A] at hw
  exact ⟨bm, h, by rw [hw]; decide⟩

/-- C12, as stated, fails with the quiet zone: for the string `A` with
`barWeight = 2` and `addQuietZone = true` the returned bitmap is 132 wide and
28 high, while `floor(3 * 132 / 10) + 1 = 40`. -/
theorem height_ignores_quiet_zone :
    ∃ bm, MakeBarcodeImage [65] 2 true = some bm ∧ bm.width = 132 ∧ bm.height = 28
      ∧ bm.height ≠ 3 * bm.width / 10 + 1 := by
  obtain ⟨bm, h⟩ := MakeBarcodeImage_isSome [65] 2 true IsAscii_A (by decide) (Renderable_A true)
  have hall := MakeBarcodeImage_some [65] 2 true bm IsAscii_A (by decide) h
  have hw : bm.width = 132 := by
    rw [hall.2.1]
    unfold exactWidth baseWidth exactModules quietMargin
    rw [StringToCode128_A]
    decide
  have hh : bm.height = 28 := by
    rw [hall.2.2.1]
    unfold exactHeight baseWidth exactModules
    rw [StringToCode128_A]
    decide
  exact ⟨bm, h, hw, hh, by rw [hw, hh]; decide⟩

/-- C12, amended: the height is computed from the width before the quiet-zone
margin is added.  For an ASCII string and `barWeight >= 1`, every returned
bitmap has height `int(w * 0.30f + 1)` for `w = ((L - 3) * 11 + 35) * barWeight`,
which equals `floor(3 * w / 10) + 1` in exact arithmetic; without the quiet
zone `w` is the width of the bitmap. -/
theorem MakeBarcodeImage_height (asciiData : List Int) (bw : Int) (q : Bool)
    (hs : IsAscii asciiData) (hbw : 1 ≤ bw) :
    (∀ bm, MakeBarcodeImage asciiData bw q = some bm →
        bm.height
            = heightOfWidth (((((StringToCode128 asciiData).length : Int) - 3) * 11 + 35) * bw)
          ∧ bm.height
            = 3 * (((((StringToCode128 asciiData).length : Int) - 3) * 11 + 35) * bw) / 10 + 1
          ∧ (q = false → bm.height = 3 * bm.width / 10 + 1))
      ∧ (Renderable asciiData bw q → ∃ bm, MakeBarcodeImage asciiData bw q = some bm) := by
  refine ⟨fun bm h => ?_, MakeBarcodeImage_isSome asciiData bw q hs hbw⟩
  obtain ⟨hrend, hw, hh, -⟩ := MakeBarcodeImage_some asciiData bw q bm hs hbw h
  have hE := exactModules_ge asciiData
  have hm := quietMargin_bounds bw q hbw
  have hEbw : 0 ≤ exactModules asciiData * (bw - 1) := mul_nonneg (by omega) (by omega)
  have eEbw : exactModules asciiData * (bw - 1)
      = exactModules asciiData * bw - exactModules asciiData := by ring
  have hW0 : 35 ≤ baseWidth asciiData bw := by
    unfold baseWidth
    omega
  have hWW : baseWidth asciiData bw ≤ exactWidth asciiData bw q := by
    unfold exactWidth
    omega
  obtain ⟨-, -, hsmall, -⟩ := fits_bounds (baseWidth asciiData bw)
    (exactWidth asciiData bw q) (exactHeight asciiData bw) hW0 hWW rfl hrend.2
  refine ⟨?_, hh, fun hq => ?_⟩
  · rw [hh]
    exact (heightOfWidth_eq (baseWidth asciiData bw) (by omega) hsmall).symm
  · rw [hh, hw, hq]
    unfold exactHeight exactWidth quietMargin
    simp

theorem MakeBarcodeImage_height_witness :
    ∃ bm, MakeBarcodeImage [65] 2 false = some bm ∧ bm.width = 92 ∧ bm.height = 28 := by
  obtain ⟨bm, h⟩ := (MakeBarcodeImage_height [65] 2 false IsAscii_A (by decide)).2
    (Renderable_A false)
  have hh := (MakeBarcodeImage_height [65] 2 false IsAscii_A (by decide)).1 bm h
  have h1 := hh.2.1
  have h2 := hh.2.2 rfl
  rw [StringToCode128_A] at h1
  have h28 : bm.height = 28 := by rw [h1]; decide
  refine ⟨bm, h, ?_, h28⟩
  rw [h28] at h2
  have hw := (MakeBarcodeImage_some [65] 2 false bm IsAscii_A (by decide) h).2.1
  rw [hw]
  unfold exactWidth baseWidth exactModules quietMargin
  rw [StringToCode128_A]
  decide

/-- C13 (quiet-zone invariant): for an ASCII string and `barWeight >= 1`, if
`N` is the bitmap returned without and `Q` the one returned with the quiet
zone, then `Q` is `2 * 10 * barWeight` wider and as high as `N`, the pixel
`(x + 10 * barWeight, y)` of `Q` equals the pixel `(x, y)` of `N`, and the
left and right margins of `Q` are background; both bitmaps are returned
whenever the larger one is renderable. -/
theorem quiet_zone_invariant (asciiData : List Int) (bw : Int)
    (hs : IsAscii asciiData) (hbw : 1 ≤ bw) :
    (∀ N Q, MakeBarcodeImage asciiData bw false = some N →
        MakeBarcodeImage asciiData bw true = some Q →
        Q.width = N.width + 2 * 10 * bw ∧ Q.height = N.height
          ∧ (∀ x y : Int, 0 ≤ x → x < N.width → 0 ≤ y → y < N.height →
              Q.pixel (x + 10 * bw) y = N.pixel x y)
          ∧ (∀ x y : Int, 0 ≤ y → y < Q.height →
              ((0 ≤ x ∧ x < 10 * bw) ∨ (N.width + 10 * bw ≤ x ∧ x < Q.width)) →
              Q.pixel x y = backgroundPixel))
      ∧ (Renderable asciiData bw true →
          ∃ N Q, MakeBarcodeImage asciiData bw false = some N
            ∧ MakeBarcodeImage asciiData bw true = some Q) := by
  constructor
  · intro N Q hN hQ
    obtain ⟨hrN, hwN, hhN, hcN⟩ := MakeBarcodeImage_some asciiData bw false N hs hbw hN
    obtain ⟨hrQ, hwQ, hhQ, hcQ⟩ := MakeBarcodeImage_some asciiData bw true Q hs hbw hQ
    have hvalid := hrN.1
    have htot := (totalModules_StringToCode128 asciiData hs hvalid).1
    have ewN : exactWidth asciiData bw false = baseWidth asciiData bw := by
      simp [exactWidth, quietMargin]
    have ewQ : exactWidth asciiData bw true = baseWidth asciiData bw + 2 * 10 * bw := by
      simp only [exactWidth, quietMargin, if_true]
      ring
    have emN : quietMargin bw false = 0 := by simp [quietMargin]
    have emQ : quietMargin bw true = 10 * bw := by simp [quietMargin]
    rw [ewN, emN] at hcN
    rw [ewQ, emQ] at hcQ
    rw [ewN] at hwN
    rw [ewQ] at hwQ
    refine ⟨by rw [hwQ, hwN], by rw [hhQ, hhN], fun x y hx0 hxW hy0 hyH => ?_,
      fun x y hy0 hyH hx => ?_⟩
    · rw [hwN] at hxW
      rw [hhN] at hyH
      have hq := hcQ.2 (x + 10 * bw) y (by omega) (by omega) hy0 hyH
      have hn := hcN.2 x y hx0 hxW hy0 hyH
      have hshift := markedBy_shift (StringToCode128 asciiData) bw 0 (10 * bw) x
      rw [zero_add] at hshift
      unfold Code128Bitmap.pixel
      rw [hwQ, hwN]
      by_cases hm : markedBy (StringToCode128 asciiData) bw 0 x
      · rw [hq.1 (hshift.mpr hm), hn.1 hm]
      · rw [hq.2 (fun e => hm (hshift.mp e)), hn.2 hm]
    · rw [hhQ] at hyH
      rw [hwN, hwQ] at hx
      have hE := exactModules_ge asciiData
      have hEbw : 0 ≤ exactModules asciiData * (bw - 1) := mul_nonneg (by omega) (by omega)
      have eEbw : exactModules asciiData * (bw - 1)
          = exactModules asciiData * bw - exactModules asciiData := by ring
      have hW0 : 35 ≤ baseWidth asciiData bw := by
        unfold baseWidth
        omega
      have hx2 : 0 ≤ x ∧ x < baseWidth asciiData bw + 2 * 10 * bw := by omega
      have hq := hcQ.2 x y hx2.1 hx2.2 hy0 hyH
      unfold Code128Bitmap.pixel
      rw [hwQ]
      apply hq.2
      intro hm
      have hr := markedBy_range (StringToCode128 asciiData) bw (10 * bw) x hvalid (by omega) hm
      rw [htot] at hr
      unfold baseWidth at hx
      rw [mul_comm bw] at hr
      omega
  · intro hr
    have hrN : Renderable asciiData bw false := by
      refine ⟨hr.1, lt_of_le_of_lt ?_ hr.2⟩
      have hE := exactModules_ge asciiData
      have hEbw : 0 ≤ exactModules asciiData * (bw - 1) := mul_nonneg (by omega) (by omega)
      have eEbw : exactModules asciiData * (bw - 1)
          = exactModules asciiData * bw - exactModules asciiData := by ring
      apply mul_le_mul_of_nonneg_right
      · simp only [exactWidth, quietMargin, if_true, Bool.false_eq_true, if_false]
        omega
      · unfold exactHeight baseWidth
        omega
    obtain ⟨N, hN⟩ := MakeBarcodeImage_isSome asciiData bw false hs hbw hrN
    obtain ⟨Q, hQ⟩ := MakeBarcodeImage_isSome asciiData bw true hs hbw hr
    exact ⟨N, Q, hN, hQ⟩

theorem quiet_zone_invariant_witness :
    ∃ N Q, MakeBarcodeImage [65] 2 false = some N ∧ MakeBarcodeImage [65] 2 true = some Q
      ∧ Q.width = N.width + 40 ∧ Q.height = N.height
      ∧ Q.pixel 20 0 = N.pixel 0 0 ∧ Q.pixel 19 0 = backgroundPixel := by
  obtain ⟨N, Q, hN, hQ⟩ := (quiet_zone_invariant [65] 2 IsAscii_A (by decide)).2
    (Renderable_A true)
  have h := (quiet_zone_invariant [65] 2 IsAscii_A (by decide)).1 N Q hN hQ
  have hNw := (bitmap_A_size N hN)
  refine ⟨N, Q, hN, hQ, h.1, h.2.1, ?_, ?_⟩
  · have := h.2.2.1 0 0 (le_refl 0) (by rw [hNw.1]; decide) (le_refl 0) (by rw [hNw.2]; decide)
    simpa using this
  · exact h.2.2.2 19 0 (le_refl 0) (by rw [h.2.1, hNw.2]; decide)
      (Or.inl ⟨by decide, by decide⟩)

/-- C14 (CodesetAllowedForChar classification): for every integer `c` the
allowance is A-only when `c < 32`, A-or-B when `32 <= c <= 95` and B-only when
`c > 95`; in particular at the boundary values 31, 32, 95 and 96. -/
theorem CodesetAllowedForChar_classification (c : Int) :
    (c < 32 → CodesetAllowedForChar c = CodeSetAllowed.CodeA)
      ∧ (32 ≤ c ∧ c ≤ 95 → CodesetAllowedForChar c = CodeSetAllowed.CodeAorB)
      ∧ (95 < c → CodesetAllowedForChar c = CodeSetAllowed.CodeB)
      ∧ CodesetAllowedForChar 31 = CodeSetAllowed.CodeA
      ∧ CodesetAllowedForChar 32 = CodeSetAllowed.CodeAorB
      ∧ CodesetAllowedForChar 95 = CodeSetAllowed.CodeAorB
      ∧ CodesetAllowedForChar 96 = CodeSetAllowed.CodeB := by
  refine ⟨fun h => ?_, fun h => ?_, fun h => ?_, by decide, by decide, by decide, by decide⟩
  · unfold CodesetAllowedForChar
    rw [if_neg (by omega), if_pos h]
  · unfold CodesetAllowedForChar
    rw [if_pos ⟨by omega, h.2⟩]
  · unfold CodesetAllowedForChar
    rw [if_neg (by omega), if_neg (by omega)]

theorem CodesetAllowedForChar_classification_witness :
    CodesetAllowedForChar 10 = CodeSetAllowed.CodeA
      ∧ CodesetAllowedForChar 65 = CodeSetAllowed.CodeAorB
      ∧ CodesetAllowedForChar 122 = CodeSetAllowed.CodeB :=
  ⟨(CodesetAllowedForChar_classification 10).1 (by decide),
    (CodesetAllowedForChar_classification 65).2.1 ⟨by decide, by decide⟩,
    (CodesetAllowedForChar_classification 122).2.2.1 (by decide)⟩

/-- C15 (CodeValueForChar range): for `0 <= c <= 127` the code value is
`c - 32` when `c >= 32` and `c + 64` otherwise, and it lies in `0..95`. -/
theorem CodeValueForChar_formula_and_range (c : Int) (h0 : 0 ≤ c) (h1 : c ≤ 127) :
    (32 ≤ c → CodeValueForChar c = c - 32) ∧ (c < 32 → CodeValueForChar c = c + 64)
      ∧ 0 ≤ CodeValueForChar c ∧ CodeValueForChar c ≤ 95 := by
  refine ⟨fun h => CodeValueForChar_of_ge c h, fun h => ?_, CodeValueForChar_range c h0 h1⟩
  unfold CodeValueForChar
  rw [if_neg (by omega)]

theorem CodeValueForChar_formula_and_range_witness :
    CodeValueForChar 65 = 65 - 32 ∧ CodeValueForChar 10 = 10 + 64
      ∧ 0 ≤ CodeValueForChar 127 ∧ CodeValueForChar 127 ≤ 95 :=
  ⟨(CodeValueForChar_formula_and_range 65 (by decide) (by decide)).1 (by decide),
    (CodeValueForChar_formula_and_range 10 (by decide) (by decide)).2.1 (by decide),
    (CodeValueForChar_formula_and_range 127 (by decide) (by decide)).2.2⟩

/-- C16 (pattern table shape): every code in `0..105` has six positive widths
in slots 0..5 that sum to 11 and zeros in slots 6 and 7; the stop code 106 has
seven positive widths in slots 0..6 that sum to 13 and zero in slot 7; hence
start, checksum and stop contribute 35 modules and every other code 11. -/
theorem pattern_table_shape :
    (∀ code : Int, 0 ≤ code → code ≤ 105 →
        (∀ j : Nat, j < 6 → ∃ w, GetCPatterns code (j : Int) = some w ∧ 0 < w)
          ∧ GetCPatterns code 6 = some 0 ∧ GetCPatterns code 7 = some 0
          ∧ codeModules code = 11)
      ∧ ((∀ j : Nat, j < 7 → ∃ w, GetCPatterns 106 (j : Int) = some w ∧ 0 < w)
          ∧ GetCPatterns 106 7 = some 0 ∧ codeModules 106 = 13)
      ∧ (∀ code : Int, ∀ j : Nat, 0 ≤ code → code ≤ 106 → j < 8 →
          GetCPatterns code (j : Int) = some (slot code j))
      ∧ (∀ start ck : Int, 0 ≤ start → start ≤ 105 → 0 ≤ ck → ck ≤ 105 →
          codeModules start + codeModules ck + codeModules 106 = 35) := by
  refine ⟨fun code h0 h1 => ?_, ?_, fun code j h0 h1 hj => GetCPatterns_eq code j h0 h1 hj,
    fun start ck h0 h1 h2 h3 => ?_⟩
  · have hr := slot_regular code h0 h1
    refine ⟨fun j hj => ⟨slot code j, GetCPatterns_eq code j h0 (by omega) (by omega),
      hr.1 j hj⟩, ?_, ?_, hr.2.2.2⟩
    · have := GetCPatterns_eq code 6 h0 (by omega) (by omega)
      rw [hr.2.1] at this
      exact this
    · have := GetCPatterns_eq code 7 h0 (by omega) (by omega)
      rw [hr.2.2.1] at this
      exact this
  · have hs := slot_stop
    refine ⟨fun j hj => ⟨slot 106 j, GetCPatterns_eq 106 j (by decide) (by decide) (by omega),
      hs.1 j hj⟩, ?_, hs.2.2⟩
    have := GetCPatterns_eq 106 7 (by decide) (by decide) (by omega)
    rw [hs.2.1] at this
    exact this
  · rw [(slot_regular start h0 h1).2.2.2, (slot_regular ck h2 h3).2.2.2, slot_stop.2.2]
    rfl

theorem pattern_table_shape_witness :
    ((∀ j : Nat, j < 6 → ∃ w, GetCPatterns 33 (j : Int) = some w ∧ 0 < w)
        ∧ GetCPatterns 33 6 = some 0 ∧ GetCPatterns 33 7 = some 0 ∧ codeModules 33 = 11)
      ∧ codeModules 104 + codeModules 34 + codeModules 106 = 35 :=
  ⟨pattern_table_shape.1 33 (by decide) (by decide),
    pattern_table_shape.2.2.2 104 34 (by decide) (by decide) (by decide) (by decide)⟩

/-- C17 (decoding): for every string over `0..127`, the reference decoder
applied to the sequence produced by `StringToCode128` yields the string. -/
theorem decode_round_trip (asciiData : List Int) (h : IsAscii asciiData) :
    referenceDecode (StringToCode128 asciiData) = asciiData :=
  referenceDecode_StringToCode128 asciiData h

theorem decode_round_trip_witness :
    referenceDecode (StringToCode128 [1, 97, 2, 3, 98, 99, 5]) = [1, 97, 2, 3, 98, 99, 5] :=
  decode_round_trip [1, 97, 2, 3, 98, 99, 5] (by unfold IsAscii; decide)

/-- C18 (painting follows the pattern table): for an ASCII string and
`barWeight >= 1`, with `m` the quiet margin, a pixel `(x, y)` of a returned
bitmap is the mark value exactly when `x` lies in a bar span, where symbol `k`
starts at column `m + 11 * k * barWeight` and its bar `j` starts
`barWeight * (slots 0 .. 2j-1)` after that and is `barWeight * slot (2j)` wide;
every other pixel is background, so only two colours occur and all rows are
equal; a bitmap is returned whenever the input is renderable. -/
theorem painting_follows_table (asciiData : List Int) (bw : Int) (q : Bool)
    (hs : IsAscii asciiData) (hbw : 1 ≤ bw) :
    (∀ bm, MakeBarcodeImage asciiData bw q = some bm →
        ∀ x y : Int, 0 ≤ x → x < bm.width → 0 ≤ y → y < bm.height →
          (bm.pixel x y = markPixel
              ↔ InBarSpan (StringToCode128 asciiData) bw (if q then 10 * bw else 0) x)
            ∧ (¬ InBarSpan (StringToCode128 asciiData) bw (if q then 10 * bw else 0) x
                → bm.pixel x y = backgroundPixel)
            ∧ (bm.pixel x y = markPixel ∨ bm.pixel x y = backgroundPixel)
            ∧ (∀ y' : Int, 0 ≤ y' → y' < bm.height → bm.pixel x y' = bm.pixel x y))
      ∧ (Renderable asciiData bw q → ∃ bm, MakeBarcodeImage asciiData bw q = some bm) := by
  refine ⟨fun bm h x y hx0 hxW hy0 hyH => ?_, MakeBarcodeImage_isSome asciiData bw q hs hbw⟩
  obtain ⟨hrend, hw, hh, hcan⟩ := MakeBarcodeImage_some asciiData bw q bm hs hbw h
  have h11 := (totalModules_StringToCode128 asciiData hs hrend.1).2
  have hiff := markedBy_iff_InBarSpan (StringToCode128 asciiData) bw (quietMargin bw q) x h11
  rw [show quietMargin bw q = (if q then 10 * bw else 0) from rfl] at hiff
  have hpix : ∀ y' : Int, 0 ≤ y' → y' < bm.height →
      (markedBy (StringToCode128 asciiData) bw (quietMargin bw q) x → bm.pixel x y' = markPixel)
        ∧ (¬ markedBy (StringToCode128 asciiData) bw (quietMargin bw q) x
            → bm.pixel x y' = backgroundPixel) := by
    intro y' h0 h1
    unfold Code128Bitmap.pixel
    rw [hw]
    exact hcan.2 x y' hx0 (by rw [← hw]; exact hxW) h0 (by rw [← hh]; exact h1)
  have hy := hpix y hy0 hyH
  by_cases hm : markedBy (StringToCode128 asciiData) bw (quietMargin bw q) x
  · have hmark := hy.1 hm
    refine ⟨⟨fun _ => hiff.mp hm, fun _ => hmark⟩, fun hn => absurd (hiff.mp hm) hn,
      Or.inl hmark, fun y' h0 h1 => ?_⟩
    rw [(hpix y' h0 h1).1 hm, hmark]
  · have hbg := hy.2 hm
    refine ⟨⟨fun e => ?_, fun e => absurd (hiff.mpr e) hm⟩, fun _ => hbg, Or.inr hbg,
      fun y' h0 h1 => ?_⟩
    · rw [hbg] at e
      exact absurd e.symm markPixel_ne_backgroundPixel
    · rw [(hpix y' h0 h1).2 hm, hbg]

theorem painting_follows_table_witness :
    ∃ bm, MakeBarcodeImage [65] 2 true = some bm ∧ bm.pixel 20 0 = markPixel
      ∧ (∀ y' : Int, 0 ≤ y' → y' < bm.height → bm.pixel 20 y' = bm.pixel 20 0) := by
  obtain ⟨bm, h⟩ := (painting_follows_table [65] 2 true IsAscii_A (by decide)).2
    (Renderable_A true)
  have hall := MakeBarcodeImage_some [65] 2 true bm IsAscii_A (by decide) h
  have hw : bm.width = 132 := by
    rw [hall.2.1]
    unfold exactWidth baseWidth exactModules quietMargin
    rw [StringToCode128_A]
    decide
  have hh : bm.height = 28 := by
    rw [hall.2.2.1]
    unfold exactHeight baseWidth exactModules
    rw [StringToCode128_A]
    decide
  have hp := (painting_follows_table [65] 2 true IsAscii_A (by decide)).1 bm h 20 0
    (by decide) (by rw [hw]; decide) (le_refl 0) (by rw [hh]; decide)
  refine ⟨bm, h, hp.1.mpr ⟨0, 0, by rw [StringToCode128_A]; decide, by decide, ?_, ?_⟩, hp.2.2.2⟩
  · rw [StringToCode128_A]
    decide
  · rw [StringToCode128_A]
    decide

/-- C19 (the bars fit the bitmap), evaluated on the string of 6908 letters `z`
with `barWeight = 1` and no quiet zone: the pixel count `76023 * 22807` fits an
`int`, but the sequence holds the checksum `-14`, the read of the pattern table
at `-14` is outside the table, and no bitmap is returned. -/
theorem MakeBarcodeImage_undefined_on_overflow :
    IsAscii (List.replicate 6908 122)
      ∧ (-14 : Int) ∈ StringToCode128 (List.replicate 6908 122)
      ∧ GetCPatterns (-14) 0 = none
      ∧ exactWidth (List.replicate 6908 122) 1 false = 76023
      ∧ exactHeight (List.replicate 6908 122) 1 = 22807
      ∧ (76023 : Int) * 22807 < 2 ^ 31
      ∧ MakeBarcodeImage (List.replicate 6908 122) 1 false = none := by
  have hmem : (-14 : Int) ∈ StringToCode128 (List.replicate 6908 122) := by
    rw [StringToCode128_replicate_z]
    exact List.mem_append_right _ (List.mem_cons_self _ _)
  refine ⟨IsAscii_replicate_z, hmem, by decide, ?_, ?_, by decide, ?_⟩
  · unfold exactWidth baseWidth exactModules quietMargin
    rw [StringToCode128_replicate_z_length]
    decide
  · unfold exactHeight baseWidth exactModules
    rw [StringToCode128_replicate_z_length]
    decide
  · cases h : MakeBarcodeImage (List.replicate 6908 122) 1 false with
    | none => rfl
    | some bm =>
      have hr := (MakeBarcodeImage_some _ 1 false bm IsAscii_replicate_z (by decide) h).1
      have := (hr.1 (-14) hmem).1
      omega

/-- C20 (distinct patterns): two different codes in `0..106` differ in at least
one of the eight slots of their rows. -/
theorem patterns_distinct (i j : Int) (hi0 : 0 ≤ i) (hi1 : i ≤ 106) (hj0 : 0 ≤ j)
    (hj1 : j ≤ 106) (hne : i ≠ j) :
    ∃ k : Nat, k < 8 ∧ GetCPatterns i (k : Int) ≠ GetCPatterns j (k : Int) := by
  obtain ⟨n, rfl⟩ := Int.eq_ofNat_of_zero_le hi0
  obtain ⟨m, rfl⟩ := Int.eq_ofNat_of_zero_le hj0
  obtain ⟨t, ht, hd⟩ := patternRows_ne n m (by omega) (by omega) (fun e => hne (by rw [e]))
  refine ⟨t, ht, ?_⟩
  rw [GetCPatterns_eq _ t hi0 hi1 ht, GetCPatterns_eq _ t hj0 hj1 ht]
  intro e
  apply hd
  have := Option.some.inj e
  simpa [slot] using this

theorem patterns_distinct_witness :
    ∃ k : Nat, k < 8 ∧ GetCPatterns 103 (k : Int) ≠ GetCPatterns 104 (k : Int) :=
  patterns_distinct 103 104 (by decide) (by decide) (by decide) (by decide) (by decide)

end GenCode128
